import Mathlib

/-!
# Verification of the JSON:API transcoding serializers

A shallow embedding, in Lean 4, of `django_rest_json_api/serializers.py`
(the document/resource transcoding engine of django-rest-json-api) together
with the parts of its substrate the claims depend on:

* the `inflection` string transforms registered in `reverse_inflectors`
  (serializers.py lines 29-36) — modelled character-by-character from the
  library's regular-expression definitions, for ASCII input;
* `flatten_error_details` (lines 39-61);
* the link, relationship, resource and document serializers'
  `to_internal_value` / `to_representation` methods.

Sources of the embedding:

* Everything under `django_rest_json_api/serializers.py` is translated
  directly from that file (line references are given on each definition).
* Behaviour living in the external packages the file calls into —
  Django REST framework's `Serializer.to_internal_value` /
  `to_representation` field loop, `DictField`, and
  `drf_extra_fields.parameterized.ParameterizedGenericSerializer`'s
  dispatch-by-`type` to a per-type "specific" serializer — is modelled from
  DRF's documented field contract (required / read-only flags, the
  `serializers.empty` sentinel, error accumulation keyed by field name)
  and, for the parameterized dispatch, from the specification's
  description of the field-schema collaborator (spec §4.3 steps 5-7, §6):
  a registry mapping a resource `type` to its ordered field schema, each
  field declared attribute-shaped or relationship-shaped.  Per-field value
  validation of the specific serializers (UUID format, min-length, …) is
  not modelled; field values are opaque JSON values.

Python-semantics conventions used throughout:

* Python dictionaries are association lists with distinct keys; `dict.get`
  returning the `serializers.empty` sentinel is `Option` with `none`.
* `repr()` of a Python `str` holding no quote, backslash or control
  character is the string wrapped in single quotes.
* The de-inflection loop (serializers.py lines 514-519) iterates
  `dict.keys()` while popping and re-inserting; the file targets Python 2
  (`six`, `collections_abc` BBB imports), where `keys()` is a list
  snapshot, so the net effect is mapping each key in order.
-/

/-- JSON values as they appear on the wire.  Numbers/booleans are omitted:
no claim distinguishes them from other opaque scalar values, and `str`
together with `null`, arrays and objects covers every shape the claims
quantify over. -/
inductive JVal where
  | null
  | str (s : String)
  | arr (items : List JVal)
  | obj (fields : List (String × JVal))

mutual

/-- Structural (Python `==`) equality on JSON values. -/
def JVal.beq : JVal → JVal → Bool
  | .null, .null => true
  | .str a, .str b => a == b
  | .arr a, .arr b => JVal.beqL a b
  | .obj a, .obj b => JVal.beqO a b
  | _, _ => false

def JVal.beqL : List JVal → List JVal → Bool
  | [], [] => true
  | a :: as, b :: bs => JVal.beq a b && JVal.beqL as bs
  | _, _ => false

def JVal.beqO : List (String × JVal) → List (String × JVal) → Bool
  | [], [] => true
  | a :: as, b :: bs => a.1 == b.1 && JVal.beq a.2 b.2 && JVal.beqO as bs
  | _, _ => false

end

mutual

theorem JVal.beq_refl : ∀ a : JVal, JVal.beq a a = true
  | .null => rfl
  | .str s => by simp [JVal.beq]
  | .arr xs => by simp only [JVal.beq]; exact JVal.beqL_refl xs
  | .obj m => by simp only [JVal.beq]; exact JVal.beqO_refl m

theorem JVal.beqL_refl : ∀ l : List JVal, JVal.beqL l l = true
  | [] => rfl
  | a :: as => by
      simp only [JVal.beqL, Bool.and_eq_true]
      exact ⟨JVal.beq_refl a, JVal.beqL_refl as⟩

theorem JVal.beqO_refl : ∀ l : List (String × JVal), JVal.beqO l l = true
  | [] => rfl
  | a :: as => by
      simp only [JVal.beqO, Bool.and_eq_true, beq_self_eq_true, true_and]
      exact ⟨JVal.beq_refl a.2, JVal.beqO_refl as⟩

end

mutual

theorem JVal.beq_sound : ∀ a b : JVal, JVal.beq a b = true → a = b
  | .null, .null, _ => rfl
  | .null, .str _, h => by simp [JVal.beq] at h
  | .null, .arr _, h => by simp [JVal.beq] at h
  | .null, .obj _, h => by simp [JVal.beq] at h
  | .str _, .null, h => by simp [JVal.beq] at h
  | .str a, .str b, h => by
      simp only [JVal.beq, beq_iff_eq] at h; rw [h]
  | .str _, .arr _, h => by simp [JVal.beq] at h
  | .str _, .obj _, h => by simp [JVal.beq] at h
  | .arr _, .null, h => by simp [JVal.beq] at h
  | .arr _, .str _, h => by simp [JVal.beq] at h
  | .arr a, .arr b, h => by
      simp only [JVal.beq] at h
      rw [JVal.beqL_sound a b h]
  | .arr _, .obj _, h => by simp [JVal.beq] at h
  | .obj _, .null, h => by simp [JVal.beq] at h
  | .obj _, .str _, h => by simp [JVal.beq] at h
  | .obj _, .arr _, h => by simp [JVal.beq] at h
  | .obj a, .obj b, h => by
      simp only [JVal.beq] at h
      rw [JVal.beqO_sound a b h]

theorem JVal.beqL_sound : ∀ a b : List JVal, JVal.beqL a b = true → a = b
  | [], [], _ => rfl
  | [], _ :: _, h => by simp [JVal.beqL] at h
  | _ :: _, [], h => by simp [JVal.beqL] at h
  | a :: as, b :: bs, h => by
      simp only [JVal.beqL, Bool.and_eq_true] at h
      rw [JVal.beq_sound a b h.1, JVal.beqL_sound as bs h.2]

theorem JVal.beqO_sound :
    ∀ a b : List (String × JVal), JVal.beqO a b = true → a = b
  | [], [], _ => rfl
  | [], _ :: _, h => by simp [JVal.beqO] at h
  | _ :: _, [], h => by simp [JVal.beqO] at h
  | a :: as, b :: bs, h => by
      simp only [JVal.beqO, Bool.and_eq_true, beq_iff_eq] at h
      have h1 : a = b := Prod.ext h.1.1 (JVal.beq_sound a.2 b.2 h.1.2)
      rw [h1, JVal.beqO_sound as bs h.2]

end

instance : DecidableEq JVal := fun a b =>
  if h : JVal.beq a b = true then isTrue (JVal.beq_sound a b h)
  else isFalse (fun he => h (he ▸ JVal.beq_refl a))

/-- A Python dict of JSON values: an association list with distinct keys. -/
abbrev Obj := List (String × JVal)

/-- `dictionary.get(field_name, serializers.empty)` — DRF `Field.get_value`. -/
def objGet (m : Obj) (k : String) : Option JVal :=
  (m.find? (fun p => p.1 == k)).map (fun p => p.2)

/-- `Field.get_value` applied to an arbitrary value: member lookup on a
mapping.  On non-mappings Python raises `AttributeError`; the claims only
quantify over mapping-shaped resources, and that branch is `none` here. -/
def jvGet : JVal → String → Option JVal
  | .obj m, k => objGet m k
  | _, _ => none

/-- Does the dict have the key (`key in dict` / set intersection tests). -/
def objHas (m : Obj) (k : String) : Bool := m.any (fun p => p.1 == k)

/-! ## The inflection library's string transforms

`reverse_inflectors` (serializers.py lines 29-35) registers
`singularize↔pluralize`, `dasherize→underscore`, `underscore→dasherize`
and `parameterize→underscore`; `field_inflectors` (line 36) activates
`parameterize`.  The three transforms the theorems use are modelled
character-by-character from `inflection.py`'s definitions, restricted to
ASCII input (`transliterate` is the identity there):

```python
def dasherize(word): return word.replace('_', '-')

def underscore(word):
    word = re.sub(r"([A-Z]+)([A-Z][a-z])", r'\1_\2', word)
    word = re.sub(r"([a-z\d])([A-Z])", r'\1_\2', word)
    word = word.replace("-", "_")
    return word.lower()

def parameterize(string, separator='-'):
    string = transliterate(string)
    string = re.sub(r"(?i)[^a-z0-9\-_]+", separator, string)
    if separator:
        # no more than one separator in a row, strip leading/trailing
        string = re.sub(r'-{2,}', separator, string)
        string = re.sub(r"(?i)^-|-$", '', string)
    return string.lower()
```
-/

/-- `re.sub(r"([A-Z]+)([A-Z][a-z])", r'\1_\2', word)`: an underscore is
inserted before the last letter of every maximal uppercase run of length
at least two that is immediately followed by a lowercase letter; scanning
resumes after the matched lowercase letter.  `run` accumulates the pending
uppercase run in reverse. -/
def usSub1Aux : List Char → List Char → List Char
  | run, [] => run.reverse
  | run, c :: cs =>
    if c.isUpper then usSub1Aux (c :: run) cs
    else if c.isLower then
      match run with
      | r1 :: r2 :: rrest => (r2 :: rrest).reverse ++ '_' :: r1 :: c :: usSub1Aux [] cs
      | _ => run.reverse ++ c :: usSub1Aux [] cs
    else run.reverse ++ c :: usSub1Aux [] cs

def usSub1 (l : List Char) : List Char := usSub1Aux [] l

/-- `re.sub(r"([a-z\d])([A-Z])", r'\1_\2', word)`: an underscore between a
lowercase-or-digit character and an uppercase one; non-overlapping,
scanning resumes after each match. -/
def usSub2 : List Char → List Char
  | c1 :: c2 :: rest =>
    if (c1.isLower || c1.isDigit) && c2.isUpper then
      c1 :: '_' :: c2 :: usSub2 rest
    else
      c1 :: usSub2 (c2 :: rest)
  | l => l

/-- `inflection.underscore`. -/
def underscore (w : String) : String :=
  String.mk (((usSub2 (usSub1 w.data)).map
    (fun c => if c = '-' then '_' else c)).map Char.toLower)

/-- `inflection.dasherize`. -/
def dasherize (w : String) : String :=
  String.mk (w.data.map (fun c => if c = '_' then '-' else c))

/-- Characters kept verbatim by `parameterize`'s first substitution:
`[a-z0-9\-_]` case-insensitively. -/
def paramKeep (c : Char) : Bool :=
  c.isLower || c.isUpper || c.isDigit || c = '-' || c = '_'

theorem length_dropWhile_le {α : Type} (p : α → Bool) :
    ∀ l : List α, (l.dropWhile p).length ≤ l.length
  | [] => le_refl _
  | a :: l => by
      simp only [List.dropWhile]
      split
      · exact Nat.le_succ_of_le (length_dropWhile_le p l)
      · exact le_refl _

/-- `re.sub(r"(?i)[^a-z0-9\-_]+", '-', s)`: every maximal run of
characters outside the class becomes a single separator. -/
def paramSubBad : List Char → List Char
  | [] => []
  | c :: cs =>
    if paramKeep c then c :: paramSubBad cs
    else '-' :: paramSubBad (cs.dropWhile (fun d => !paramKeep d))
termination_by l => l.length
decreasing_by
  all_goals simp only [List.length_cons]
  · omega
  · exact Nat.lt_succ_of_le (length_dropWhile_le _ cs)

/-- `re.sub(r'-{2,}', '-', s)`: runs of separators collapse to one. -/
def collapseDashes : List Char → List Char
  | [] => []
  | c :: cs =>
    if c = '-' then '-' :: collapseDashes (cs.dropWhile (fun d => d = '-'))
    else c :: collapseDashes cs
termination_by l => l.length
decreasing_by
  all_goals simp only [List.length_cons]
  · exact Nat.lt_succ_of_le (length_dropWhile_le _ cs)
  · omega

/-- `^-`: drop one leading separator. -/
def stripLead : List Char → List Char
  | '-' :: rest => rest
  | l => l

/-- `-$`: drop one trailing separator. -/
def stripTrail (l : List Char) : List Char :=
  match l.getLast? with
  | some '-' => l.dropLast
  | _ => l

/-- `re.sub(r"(?i)^-|-$", '', s)`: drop one leading and one trailing
separator. -/
def stripSep (l : List Char) : List Char := stripTrail (stripLead l)

/-- `inflection.parameterize` with the default separator, on ASCII input
(`transliterate` is the identity on ASCII). -/
def parameterize (s : String) : String :=
  String.mk ((stripSep (collapseDashes (paramSubBad s.data))).map Char.toLower)

/-- The claims' field-name character class `[a-z_]+`. -/
def lowerUnderscoreName (s : String) : Prop :=
  s ≠ "" ∧ ∀ c ∈ s.data, c.isLower ∨ c = '_'

instance (s : String) : Decidable (lowerUnderscoreName s) := by
  unfold lowerUnderscoreName; infer_instance

/-! ### The inflection transforms restricted to `[a-z_-]` names -/

theorem usSub1Aux_nil_id : ∀ l : List Char, (∀ c ∈ l, c.isUpper = false) →
    usSub1Aux [] l = l
  | [], _ => rfl
  | c :: cs, h => by
      have hc : c.isUpper = false := h c (List.mem_cons_self c cs)
      have ih := usSub1Aux_nil_id cs (fun d hd => h d (List.mem_cons_of_mem _ hd))
      simp only [usSub1Aux, hc, Bool.false_eq_true, if_false]
      by_cases hl : c.isLower = true
      · simp [hl, ih]
      · simp [hl, ih]

theorem usSub2_id : ∀ l : List Char, (∀ c ∈ l, c.isUpper = false) →
    usSub2 l = l
  | [], _ => rfl
  | [_], _ => rfl
  | c1 :: c2 :: rest, h => by
      have h2 : c2.isUpper = false := h c2 (by simp)
      have ih := usSub2_id (c2 :: rest)
        (fun d hd => h d (List.mem_cons_of_mem _ hd))
      simp [usSub2, h2, ih]

theorem lower_not_upper {c : Char} (hc : c.isLower ∨ c = '_') :
    c.isUpper = false := by
  rcases hc with hl | he
  · simp only [Char.isLower, Bool.and_eq_true, decide_eq_true_eq] at hl
    have h97 : (97 : Nat) ≤ c.val.toNat := hl.1
    simp only [Char.isUpper]
    have h90 : ¬(c.val ≤ (90 : UInt32)) := by
      intro hle
      have : c.val.toNat ≤ 90 := hle
      omega
    rw [Bool.and_eq_false_iff]
    exact Or.inr (decide_eq_false h90)
  · subst he; decide

theorem toLower_id {c : Char} (hc : c.isLower ∨ c = '_') :
    c.toLower = c := by
  rcases hc with hl | he
  · simp only [Char.isLower, Bool.and_eq_true, decide_eq_true_eq] at hl
    have h97 : (97 : Nat) ≤ c.val.toNat := hl.1
    unfold Char.toLower
    rw [if_neg]
    intro hcond
    have : c.toNat ≤ 90 := hcond.2
    unfold Char.toNat at this
    omega
  · subst he; decide

theorem not_dash {c : Char} (hc : c.isLower ∨ c = '_') : c ≠ '-' := by
  rcases hc with hl | he
  · intro he
    subst he
    revert hl
    decide
  · subst he
    decide

theorem map_id_of {α : Type} (f : α → α) :
    ∀ l : List α, (∀ c ∈ l, f c = c) → l.map f = l
  | [], _ => rfl
  | a :: t, h => by
      rw [List.map_cons, h a (List.mem_cons_self a t),
        map_id_of f t (fun c hc => h c (List.mem_cons_of_mem _ hc))]

/-- `underscore` is the identity on names over `[a-z_]`. -/
theorem underscore_id (s : String) (h : ∀ c ∈ s.data, c.isLower ∨ c = '_') :
    underscore s = s := by
  have hnu : ∀ c ∈ s.data, c.isUpper = false := fun c hc => lower_not_upper (h c hc)
  unfold underscore
  rw [usSub1, usSub1Aux_nil_id s.data hnu, usSub2_id s.data hnu, List.map_map]
  rw [map_id_of _ s.data ?_]
  · intro c hc
    simp only [Function.comp_apply, if_neg (not_dash (h c hc))]
    exact toLower_id (h c hc)

/-- `underscore ∘ dasherize` is the identity on names over `[a-z_]`:
`dasherize` turns each underscore into a dash and `underscore` turns it
back (no camel-case boundaries exist in such names). -/
theorem underscore_dasherize (s : String)
    (h : ∀ c ∈ s.data, c.isLower ∨ c = '_') :
    underscore (dasherize s) = s := by
  unfold dasherize underscore
  have hd : ∀ c ∈ s.data.map (fun c => if c = '_' then '-' else c),
      c.isUpper = false := by
    intro c hc
    rcases List.mem_map.mp hc with ⟨d, hd, he⟩
    rcases h d hd with hl | hu
    · rw [← he, if_neg (by rcases (by exact hl : d.isLower = true) with _; intro he'; subst he'; revert hl; decide)]
      exact lower_not_upper (Or.inl hl)
    · rw [← he, hu]; decide
  simp only [String.data]
  rw [usSub1, usSub1Aux_nil_id _ hd, usSub2_id _ hd, List.map_map, List.map_map]
  rw [map_id_of _ s.data ?_]
  · intro c hc
    rcases h c hc with hl | hu
    · have h1 : c ≠ '_' := by intro he; subst he; revert hl; decide
      simp only [Function.comp_apply, if_neg h1,
        if_neg (not_dash (Or.inl hl))]
      exact toLower_id (Or.inl hl)
    · subst hu
      simp only [Function.comp_apply, if_pos rfl]
      decide

theorem paramSubBad_id : ∀ l : List Char, (∀ c ∈ l, paramKeep c = true) →
    paramSubBad l = l
  | [], _ => by simp [paramSubBad]
  | c :: cs, h => by
      rw [paramSubBad, if_pos (h c (List.mem_cons_self c cs)),
        paramSubBad_id cs (fun d hd => h d (List.mem_cons_of_mem _ hd))]

theorem collapseDashes_id : ∀ l : List Char, (∀ c ∈ l, c ≠ '-') →
    collapseDashes l = l
  | [], _ => by simp [collapseDashes]
  | c :: cs, h => by
      rw [collapseDashes, if_neg (h c (List.mem_cons_self c cs)),
        collapseDashes_id cs (fun d hd => h d (List.mem_cons_of_mem _ hd))]

theorem stripLead_id (l : List Char) (h : ∀ c ∈ l, c ≠ '-') :
    stripLead l = l := by
  unfold stripLead
  split
  · exact absurd rfl (h '-' (List.mem_cons_self _ _))
  · rfl

theorem stripTrail_id (l : List Char) (h : ∀ c ∈ l, c ≠ '-') :
    stripTrail l = l := by
  unfold stripTrail
  split
  · rename_i heq
    have hm : '-' ∈ l := List.mem_of_mem_getLast? heq
    exact absurd rfl (h '-' hm)
  · rfl

theorem stripSep_id (l : List Char) (h : ∀ c ∈ l, c ≠ '-') :
    stripSep l = l := by
  unfold stripSep
  rw [stripLead_id l h, stripTrail_id l h]

/-- `parameterize` is the identity on names over `[a-z_]`. -/
theorem parameterize_id (s : String)
    (h : ∀ c ∈ s.data, c.isLower ∨ c = '_') :
    parameterize s = s := by
  unfold parameterize
  have hk : ∀ c ∈ s.data, paramKeep c = true := by
    intro c hc
    rcases h c hc with hl | hu
    · simp [paramKeep, hl]
    · subst hu; decide
  have hnd : ∀ c ∈ s.data, c ≠ '-' := fun c hc => not_dash (h c hc)
  rw [paramSubBad_id s.data hk, collapseDashes_id s.data hnd,
    stripSep_id s.data hnd, map_id_of _ s.data (fun c hc => toLower_id (h c hc))]

/-! ## The error-detail trees and `flatten_error_details`

DRF error details are trees of lists, dicts and `ErrorDetail` leaves
(`ErrorDetail` is a `str` subclass).  They are represented by `JVal`:
`.str` is an `ErrorDetail` message, `.arr`/`.obj` the containers.  A
member's detail as raised by `Field.fail` / `ValidationError(msg)` is the
one-element list `[ErrorDetail(msg)]`. -/

/-- `ValidationError(message).detail`: a one-message detail list. -/
def detailOf (msg : String) : JVal := .arr [.str msg]

/-- Insertion step of `sorted(data.items(), key=operator.itemgetter(0))`. -/
def insertByKey (p : String × JVal) :
    List (String × JVal) → List (String × JVal)
  | [] => [p]
  | q :: rest => if p.1 ≤ q.1 then p :: q :: rest else q :: insertByKey p rest

/-- `sorted(data.items(), key=operator.itemgetter(0))` — a stable sort by
key (dict keys are distinct, so stability is irrelevant). -/
def sortByKey : List (String × JVal) → List (String × JVal)
  | [] => []
  | p :: rest => insertByKey p (sortByKey rest)

theorem sizeOf_insertByKey (p : String × JVal) :
    ∀ l : List (String × JVal), sizeOf (insertByKey p l) = 1 + sizeOf p + sizeOf l
  | [] => by simp [insertByKey]
  | q :: rest => by
      unfold insertByKey
      split
      · simp only [List.cons.sizeOf_spec]; try omega
      · simp only [List.cons.sizeOf_spec, sizeOf_insertByKey p rest]; try omega

theorem sizeOf_sortByKey :
    ∀ l : List (String × JVal), sizeOf (sortByKey l) = sizeOf l
  | [] => rfl
  | p :: rest => by
      unfold sortByKey
      rw [sizeOf_insertByKey p (sortByKey rest), sizeOf_sortByKey rest]
      simp only [List.cons.sizeOf_spec]

theorem mem_insertByKey {p q : String × JVal} :
    ∀ {l : List (String × JVal)}, q ∈ insertByKey p l ↔ q = p ∨ q ∈ l := by
  intro l
  induction l with
  | nil => simp [insertByKey]
  | cons a t ih =>
      unfold insertByKey
      split
      · simp only [List.mem_cons]
        try tauto
      · simp only [List.mem_cons, ih]
        try tauto

theorem mem_sortByKey {q : String × JVal} :
    ∀ {l : List (String × JVal)}, q ∈ sortByKey l ↔ q ∈ l := by
  intro l
  induction l with
  | nil => simp [sortByKey]
  | cons a t ih =>
      unfold sortByKey
      rw [mem_insertByKey]
      simp only [List.mem_cons, ih]

theorem sizeOf_lt_of_mem_jv {v : JVal} {l : List JVal} (h : v ∈ l) :
    sizeOf v < sizeOf l := by
  induction l with
  | nil => cases h
  | cons a t ih =>
      rcases List.mem_cons.mp h with rfl | h2
      · simp only [List.cons.sizeOf_spec]; omega
      · have := ih h2; simp only [List.cons.sizeOf_spec]; omega

theorem sizeOf_snd_lt_of_mem {p : String × JVal} {l : List (String × JVal)}
    (h : p ∈ l) : sizeOf p.2 < sizeOf l := by
  induction l with
  | nil => cases h
  | cons a t ih =>
      rcases List.mem_cons.mp h with rfl | h2
      · obtain ⟨p1, p2⟩ := p
        simp only [List.cons.sizeOf_spec, Prod.mk.sizeOf_spec]
        omega
      · have := ih h2; simp only [List.cons.sizeOf_spec]; omega

theorem snd_mem_of_mem_enumFrom {α : Type} {x : Nat × α} :
    ∀ {l : List α} {n : Nat}, x ∈ l.enumFrom n → x.2 ∈ l := by
  intro l
  induction l with
  | nil => intro n h; cases h
  | cons a t ih =>
      intro n h
      rcases List.mem_cons.mp h with rfl | h2
      · exact List.mem_cons_self _ _
      · exact List.mem_cons_of_mem _ (ih h2)

/-- The pointer for a list element: `'{0}/{1}'.format(source, idx)` unless
the element is an `ErrorDetail` ("Don't index multiple errors for the same
source", serializers.py lines 47-51). -/
def listItemSource (source : String) (idx : Nat) : JVal → String
  | .str _ => source
  | _ => source ++ "/" ++ toString idx

/-- `flatten_error_details` (serializers.py lines 39-61): recursively
flatten a nested error-detail tree into `(source-pointer, message)`
pairs.  Lists are walked with `enumerate`; dicts are visited in key-sorted
order; anything that is neither is yielded as a leaf with the current
pointer. -/
def flatten_error_details : JVal → String → List (String × JVal)
  | .arr items, source =>
      (items.enum.attach.map (fun x =>
        flatten_error_details x.val.2 (listItemSource source x.val.1 x.val.2))).flatten
  | .obj entries, source =>
      ((sortByKey entries).attach.map (fun x =>
        flatten_error_details x.val.2 (source ++ "/" ++ x.val.1))).flatten
  | v, source => [(source, v)]
termination_by v _ => sizeOf v
decreasing_by
  · have := sizeOf_lt_of_mem_jv (snd_mem_of_mem_enumFrom x.property)
    simp only [JVal.arr.sizeOf_spec]; omega
  · have := sizeOf_snd_lt_of_mem (mem_sortByKey.mp x.property)
    simp only [JVal.obj.sizeOf_spec]; omega

/-- The `isinstance(data, list)` branch of `flatten_error_details` as a
standalone structural recursion (related to the primary definition by
`flatten_arr` below). -/
def flattenListItems : List JVal → Nat → String → List (String × JVal)
  | [], _, _ => []
  | item :: rest, idx, source =>
      flatten_error_details item (listItemSource source idx item) ++
      flattenListItems rest (idx + 1) source

/-- The `isinstance(data, dict)` branch, after sorting. -/
def flattenDictItems : List (String × JVal) → String → List (String × JVal)
  | [], _ => []
  | (key, value) :: rest, source =>
      flatten_error_details value (source ++ "/" ++ key) ++
      flattenDictItems rest source

theorem flatten_enumFrom :
    ∀ (items : List JVal) (n : Nat) (source : String),
      ((items.enumFrom n).attach.map (fun x =>
        flatten_error_details x.val.2 (listItemSource source x.val.1 x.val.2))).flatten
      = flattenListItems items n source
  | [], _, _ => rfl
  | a :: t, n, source => by
      simp only [List.enumFrom, List.attach_cons, List.map_cons, List.map_map,
        List.flatten_cons, flattenListItems]
      rw [← flatten_enumFrom t (n + 1) source]
      rfl

/-- Bridge: the primary definition's `.arr` case is the structural helper. -/
theorem flatten_arr (items : List JVal) (source : String) :
    flatten_error_details (.arr items) source = flattenListItems items 0 source := by
  rw [flatten_error_details]
  exact flatten_enumFrom items 0 source

theorem flatten_dict_sorted :
    ∀ (entries : List (String × JVal)) (source : String),
      (entries.attach.map (fun x =>
        flatten_error_details x.val.2 (source ++ "/" ++ x.val.1))).flatten
      = flattenDictItems entries source
  | [], _ => rfl
  | (k, v) :: t, source => by
      simp only [List.attach_cons, List.map_cons, List.map_map,
        List.flatten_cons, flattenDictItems]
      rw [← flatten_dict_sorted t source]
      rfl

/-- Bridge: the primary definition's `.obj` case is the structural helper
applied to the key-sorted entries. -/
theorem flatten_obj (entries : List (String × JVal)) (source : String) :
    flatten_error_details (.obj entries) source
      = flattenDictItems (sortByKey entries) source := by
  rw [flatten_error_details]
  exact flatten_dict_sorted (sortByKey entries) source

/-! ## The specification's description of the flattening, for comparison -/

/-- "an already-terminal message (not a further nested container)", as the
specification words it: any non-container value. -/
def isTerminalMessage : JVal → Bool
  | .arr _ => false
  | .obj _ => false
  | _ => true

/-- The Error Formatter flattening as the specification describes it
(spec §4.6): dictionary keys visited in sorted order; list indices
visited in order and appended to the pointer, except that a terminal
message keeps its parent's pointer. -/
def flattenSpec : JVal → String → List (String × JVal)
  | .arr items, ptr =>
      (items.enum.attach.map (fun x =>
        flattenSpec x.val.2
          (if isTerminalMessage x.val.2 then ptr
           else ptr ++ "/" ++ toString x.val.1))).flatten
  | .obj entries, ptr =>
      ((sortByKey entries).attach.map (fun x =>
        flattenSpec x.val.2 (ptr ++ "/" ++ x.val.1))).flatten
  | v, ptr => [(ptr, v)]
termination_by v _ => sizeOf v
decreasing_by
  · have := sizeOf_lt_of_mem_jv (snd_mem_of_mem_enumFrom x.property)
    simp only [JVal.arr.sizeOf_spec]; omega
  · have := sizeOf_snd_lt_of_mem (mem_sortByKey.mp x.property)
    simp only [JVal.obj.sizeOf_spec]; omega

def flattenSpecItems : List JVal → Nat → String → List (String × JVal)
  | [], _, _ => []
  | item :: rest, idx, ptr =>
      flattenSpec item
        (if isTerminalMessage item then ptr else ptr ++ "/" ++ toString idx) ++
      flattenSpecItems rest (idx + 1) ptr

def flattenSpecEntries : List (String × JVal) → String → List (String × JVal)
  | [], _ => []
  | (key, value) :: rest, ptr =>
      flattenSpec value (ptr ++ "/" ++ key) ++ flattenSpecEntries rest ptr

theorem flattenSpec_enumFrom :
    ∀ (items : List JVal) (n : Nat) (ptr : String),
      ((items.enumFrom n).attach.map (fun x =>
        flattenSpec x.val.2
          (if isTerminalMessage x.val.2 then ptr
           else ptr ++ "/" ++ toString x.val.1))).flatten
      = flattenSpecItems items n ptr
  | [], _, _ => rfl
  | a :: t, n, ptr => by
      simp only [List.enumFrom, List.attach_cons, List.map_cons, List.map_map,
        List.flatten_cons, flattenSpecItems]
      rw [← flattenSpec_enumFrom t (n + 1) ptr]
      rfl

theorem flattenSpec_arr (items : List JVal) (ptr : String) :
    flattenSpec (.arr items) ptr = flattenSpecItems items 0 ptr := by
  rw [flattenSpec]
  exact flattenSpec_enumFrom items 0 ptr

theorem flattenSpec_dict_sorted :
    ∀ (entries : List (String × JVal)) (ptr : String),
      (entries.attach.map (fun x =>
        flattenSpec x.val.2 (ptr ++ "/" ++ x.val.1))).flatten
      = flattenSpecEntries entries ptr
  | [], _ => rfl
  | (k, v) :: t, ptr => by
      simp only [List.attach_cons, List.map_cons, List.map_map,
        List.flatten_cons, flattenSpecEntries]
      rw [← flattenSpec_dict_sorted t ptr]
      rfl

theorem flattenSpec_obj (entries : List (String × JVal)) (ptr : String) :
    flattenSpec (.obj entries) ptr = flattenSpecEntries (sortByKey entries) ptr := by
  rw [flattenSpec]
  exact flattenSpec_dict_sorted (sortByKey entries) ptr

/-- Well-formed error-detail trees: every leaf is an `ErrorDetail`
message (`rest_framework.exceptions._get_error_details` coerces all
leaves to `ErrorDetail`), so `null` never occurs. -/
inductive IsDetailTree : JVal → Prop where
  | str (s : String) : IsDetailTree (.str s)
  | arr (items : List JVal) :
      (∀ v ∈ items, IsDetailTree v) → IsDetailTree (.arr items)
  | obj (entries : List (String × JVal)) :
      (∀ p ∈ entries, IsDetailTree p.2) → IsDetailTree (.obj entries)


theorem flattenListItems_eq :
    ∀ (l : List JVal), (∀ v ∈ l, IsDetailTree v) →
      (∀ v ∈ l, ∀ s, flatten_error_details v s = flattenSpec v s) →
      ∀ idx src, flattenListItems l idx src = flattenSpecItems l idx src
  | [], _, _ => by intro idx src; rfl
  | a :: t, hwf, hih => by
      intro idx src
      simp only [flattenListItems, flattenSpecItems]
      rw [flattenListItems_eq t (fun v hv => hwf v (List.mem_cons_of_mem _ hv))
          (fun v hv => hih v (List.mem_cons_of_mem _ hv)) (idx + 1) src]
      have hma := hwf a (List.mem_cons_self a t)
      have hptr : listItemSource src idx a =
          (if isTerminalMessage a then src else src ++ "/" ++ toString idx) := by
        cases a with
        | null => cases hma
        | str s => rfl
        | arr items => rfl
        | obj entries => rfl
      rw [hptr, hih a (List.mem_cons_self a t)]

theorem flattenDictItems_eq :
    ∀ (l : List (String × JVal)),
      (∀ p ∈ l, ∀ s, flatten_error_details p.2 s = flattenSpec p.2 s) →
      ∀ src, flattenDictItems l src = flattenSpecEntries l src
  | [], _ => by intro src; rfl
  | (k, v) :: t, hih => by
      intro src
      simp only [flattenDictItems, flattenSpecEntries]
      rw [flattenDictItems_eq t (fun p hp => hih p (List.mem_cons_of_mem _ hp)) src,
        hih (k, v) (List.mem_cons_self _ t)]

/-- **C7.** Error-detail flattening: for every nested error tree of
sequences, mappings, and leaf messages, `flatten_error_details` yields
`(pointer, message)` pairs in the deterministic order described by the
specification: dictionary keys are visited in sorted order, list indices
are visited in order and appended to the pointer, except that a list
element that is an already-terminal message keeps its parent's pointer,
so multiple errors for the same logical source share one pointer
(`flattenSpec` is that description, verbatim). -/
theorem c7_flatten_error_details_follows_spec (v : JVal) (h : IsDetailTree v) :
    ∀ source, flatten_error_details v source = flattenSpec v source := by
  induction h with
  | str s => intro source; simp only [flatten_error_details, flattenSpec]
  | arr items hm ih =>
      intro source
      rw [flatten_arr, flattenSpec_arr]
      exact flattenListItems_eq items hm ih 0 source
  | obj entries hm ih =>
      intro source
      rw [flatten_obj, flattenSpec_obj]
      refine flattenDictItems_eq (sortByKey entries) ?_ source
      intro p hp s
      exact ih p (mem_sortByKey.mp hp) s

/-- Witness for C7 at the repository's own test input
(`test_flatten_error_details_nested_list`): the nested list
`[[ErrorDetail('Foo error detail')]]`. -/
theorem c7_flatten_error_details_follows_spec_witness :
    flatten_error_details (.arr [.arr [.str "Foo error detail"]]) "" =
      flattenSpec (.arr [.arr [.str "Foo error detail"]]) "" :=
  c7_flatten_error_details_follows_spec _
    (.arr _ (fun v hv => by
      simp only [List.mem_singleton] at hv
      subst hv
      exact .arr _ (fun w hw => by
        simp only [List.mem_singleton] at hw
        subst hw
        exact .str _))) ""

/-- Corroboration: on that input the flattening is `[('/0', 'Foo error
detail')]`, exactly as the repository's test asserts. -/
example :
    flatten_error_details (.arr [.arr [.str "Foo error detail"]]) "" =
      [("/0", .str "Foo error detail")] := by
  rw [flatten_arr]
  simp only [flattenListItems, listItemSource]
  rw [flatten_arr]
  simp only [flattenListItems, listItemSource, flatten_error_details]
  rfl

/-! ## Claim C5: the inflector inverse law -/

/-- **C5 counterexample.**  The claim asserts `invert(apply(n)) == n` for
every name `n` in `[a-z_]+` and *every* inflector pair registered in
`reverse_inflectors` (serializers.py lines 29-35).  The registry maps
`inflection.underscore` to `inflection.dasherize`, and that entry breaks
the law on any name containing an underscore: `underscore` leaves
`"a_b"` unchanged while its registered reverse `dasherize` rewrites it to
`"a-b"`. -/
theorem c5_inflector_inverse_counterexample :
    lowerUnderscoreName "a_b" ∧
      underscore "a_b" = "a_b" ∧ dasherize (underscore "a_b") ≠ "a_b" := by
  refine ⟨by decide, by decide, ?_⟩
  decide

/-- **C5 (amended).**  For every field name `n` drawn from `[a-z_]+`,
applying the active inflector `parameterize` (`field_inflectors`, line 36)
and then its registered reverse `underscore` returns `n` unchanged, and
likewise for the registry entry `dasherize → underscore`.  (The
`underscore → dasherize` entry fails the law — see the counterexample —
and the `pluralize`/`singularize` entries are left out: the inflection
library's irregular-noun rules are not mutual inverses.) -/
theorem c5_inflector_inverse_amended (n : String) (h : lowerUnderscoreName n) :
    underscore (parameterize n) = n ∧ underscore (dasherize n) = n :=
  ⟨by rw [parameterize_id n h.2, underscore_id n h.2],
   underscore_dasherize n h.2⟩

/-- Witness for the amended C5 at the concrete field name `"first_name"`. -/
theorem c5_inflector_inverse_amended_witness :
    underscore (parameterize "first_name") = "first_name" ∧
      underscore (dasherize "first_name") = "first_name" :=
  c5_inflector_inverse_amended "first_name" (by decide)

/-! ## The link codec (`JSONAPILinkSerializer`, serializers.py lines 278-319)

A link serializer instance holds an `href` (rendered by the hyperlinked
field to a URL string; URL resolution itself lives outside this file's
source and the URL is taken as given) and an optional non-standard `meta`
object (`JSONAPIMetaContainerSerializer`, lines 267-275; the field is
`required=False, read_only=True`, so it is rendered when present on the
instance and skipped otherwise). -/

structure LinkInstance where
  href : String
  meta : Option JVal
deriving DecidableEq

/-- `JSONAPILinkSerializer.to_representation` (lines 312-319): render the
`href`/`meta` fields, then, when `as_url_string` is set, replace the
object by `self.fields['href'].get_value(data)` — the bare URL string. -/
def linkToRepresentation (asUrlString : Bool) (inst : LinkInstance) : JVal :=
  let data : Obj :=
    [("href", .str inst.href)] ++
      (match inst.meta with
        | some m => [("meta", m)]
        | none => [])
  if asUrlString then
    match objGet data "href" with
    | some v => v
    | none => .null
  else
    .obj data

/-- **C6 counterexample.**  The claim says the object form is emitted
whenever `meta` is present; the code returns the bare URL string whenever
`as_url_string` is true, dropping a present `meta`: with
`as_url_string = True` and a non-empty `meta`, the representation is the
bare string, not the object form. -/
theorem c6_link_encode_counterexample :
    linkToRepresentation true
        ⟨"http://example.com/articles/1", some (.obj [("count", .str "10")])⟩
      = .str "http://example.com/articles/1" := rfl

/-- **C6 (amended).**  When the as-string flag is true, encode emits the
bare URL string regardless of `meta` (a present `meta` is discarded); the
object form with `href` and (when present) `meta` is emitted exactly when
the flag is false. -/
theorem c6_link_encode_amended (inst : LinkInstance) :
    linkToRepresentation true inst = .str inst.href ∧
      linkToRepresentation false inst =
        .obj ([("href", .str inst.href)] ++
          (match inst.meta with
            | some m => [("meta", m)]
            | none => [])) := by
  constructor
  · simp [linkToRepresentation, objGet]
  · rfl

/-! ## Error messages and Python formatting helpers -/

/-- `repr()` of a Python `str` containing no quote, backslash or control
character (the only shapes the theorems instantiate). -/
def pyRepr (s : String) : String := "'" ++ s ++ "'"

/-- `', '.join(...)`. -/
def joinComma : List String → String
  | [] => ""
  | [s] => s
  | s :: rest => s ++ ", " ++ joinComma rest

/-- `api_settings.NON_FIELD_ERRORS_KEY` (DRF default). -/
def nonFieldErrorsKey : String := "non_field_errors"

/-- DRF's `required` error message. -/
def requiredMsg : String := "This field is required."

/-- `JSONAPIDocumentSerializer.default_error_messages['errors_and_data']`
(serializers.py lines 740-742). -/
def errorsAndDataMsg : String :=
  "The members data and errors MUST NOT coexist in the same document."

/-- `['missing_must']` (lines 743-745). -/
def docMissingMustMsg : String :=
  "A document MUST contain at least one of the following top-level members: `data`, `errors`, `meta`."

/-- `['included_to_internal']` (lines 749-751), typos as in the source. -/
def includedToInternalMsg : String :=
  "A document may not contain `included` resources on incomming/write requrests: POST, PUT, PATCH, DELETE."

/-- `['duplicate_resource']` (lines 752-755): `{type!r}` and `{id!r}` are
passed in already rendered (`repr()` of the looked-up values), `{member!r}`
is a member name. -/
def duplicateResourceMsg (member tyRepr idRepr : String) : String :=
  "A document MUST NOT include more than one resource object for each type (" ++
    tyRepr ++ ") and id (" ++ idRepr ++ ") pair, duplicate found in " ++
    pyRepr member ++ "."

/-- `JSONAPIResourceSerializer.default_error_messages['reserved_field']`
(lines 470-471). -/
def reservedFieldMsg (member : String) (fields : List String) : String :=
  "A resource can not have " ++ pyRepr member ++ " fields named: " ++
    joinComma (fields.map pyRepr) ++ "."

/-- `['field_conflicts']` (lines 472-474). -/
def fieldConflictsMsg (fields : List String) : String :=
  "A resource can not have `attributes` and `relationships` with the same name: " ++
    joinComma (fields.map pyRepr) ++ "."

/-- `JSONAPIRelationshipSerializer.default_error_messages['missing_must']`
(lines 420-424). -/
def relMissingMustMsg : String :=
  "A \"relationship object\" MUST contain at least one of the following: `links`, `data`, `meta`."

/-! ## Version negotiation (`JSONAPIImplementationSerializer`, lines 705-728)

`pkg_resources.parse_version` is modelled for plain dotted-numeric release
versions — the only shape the serializer's own default (`'1.0'`) and the
claims use; the specification's §9 note prescribes exactly this dotted
numeric comparison.  Comparison zero-pads the shorter version. -/

/-- Split on `'.'` (character-level, so that proofs and witnesses can
evaluate it). -/
def splitDots : List Char → List (List Char)
  | [] => [[]]
  | c :: cs =>
      let rest := splitDots cs
      if c = '.' then [] :: rest
      else (c :: rest.headD []) :: rest.tail

/-- The numeric value of a digit component (Python `int()` on a digit
string); non-digit components are 0 here — release versions are all the
serializer's default and the claims use. -/
def digitsToNat (l : List Char) : Nat :=
  l.foldl (fun n c => n * 10 + (c.toNat - 48)) 0

/-- Parse `"maj.min.…"` into its numeric components. -/
def parse_version (s : String) : List Nat :=
  (splitDots s.data).map digitsToNat

/-- Lexicographic comparison of equal-length numeric tuples. -/
def versionLtAux : List Nat → List Nat → Bool
  | [], _ => false
  | _ :: _, [] => false
  | a :: as, b :: bs =>
      if a < b then true
      else if b < a then false
      else versionLtAux as bs

/-- Numeric comparison of parsed versions, zero-padding the shorter one
(PEP 440 release comparison). -/
def versionLt (a b : List Nat) : Bool :=
  let n := max a.length b.length
  versionLtAux (a ++ List.replicate (n - a.length) 0)
    (b ++ List.replicate (n - b.length) 0)

/-- `str()` of a parsed release version. -/
def renderVersion : List Nat → String
  | [] => ""
  | [n] => toString n
  | n :: rest => toString n ++ "." ++ renderVersion rest

/-- `JSONAPIImplementationSerializer.validate_version` (lines 721-728):
parse the supplied version and fail with `version_too_high` if it exceeds
the field's default, `parse_version('1.0')`. -/
def validate_version (version : String) : Except String (List Nat) :=
  let parsed := parse_version version
  if versionLt (parse_version "1.0") parsed then
    .error ("The JSON API version requested is too high and not supported: " ++
      renderVersion parsed ++ ".")
  else
    .ok parsed

/-- The representation of the `jsonapi` member: the implementation
serializer rendering an instance.  The `version` field has
`default=pkg_resources.parse_version('1.0')` (line 719), rendered by
`CharField.to_representation` as `str()`. -/
def implToRepresentation (inst : Obj) : Obj :=
  match objGet inst "version" with
  | some (.str v) => [("version", .str (renderVersion (parse_version v)))]
  | _ => [("version", .str (renderVersion (parse_version "1.0")))]

/-- The document's `jsonapi` member on encode: the `value` dict built by
`JSONAPIDocumentSerializer.to_representation` (lines 841-858) only ever
holds `data` or `errors`, so the read-only `jsonapi` field always falls
back to its `default={}` (line 773) and renders the supported version. -/
def docJsonapiRepresentation : Obj := implToRepresentation []

/-! ## The field schema (the spec's field-schema collaborator, §6)

`drf_extra_fields.parameterized.ParameterizedGenericSerializer` — the
base of `JSONAPIPrimaryDataSerializer` — dispatches on the `type` member
to a registered per-type "specific" serializer; that package is not part
of this repository.  Following spec §4.3/§6 it is modelled as a registry
mapping a resource type name to its ordered field schema; each field is
attribute-shaped or relationship-shaped (to-one, with a declared related
type), and `required` mirrors the DRF field flag.  Field values are
opaque JSON values (per-field format validation is not modelled). -/

inductive FieldKind where
  | attr
  | rel (relatedType : String)
deriving DecidableEq

structure SpecField where
  name : String
  kind : FieldKind
  required : Bool
deriving DecidableEq

abbrev Schema := List SpecField

abbrev Registry := List (String × Schema)

def lookupSchema (reg : Registry) (t : String) : Option Schema :=
  (reg.find? (fun p => p.1 == t)).map (fun p => p.2)

/-- Python `type(x).__name__` for the JSON shapes `JVal` models. -/
def pyTypeName : JVal → String
  | .null => "NoneType"
  | .str _ => "str"
  | .arr _ => "list"
  | .obj _ => "dict"

/-- DRF `DictField.default_error_messages['not_a_dict']`. -/
def notADictMsg (v : JVal) : String :=
  "Expected a dictionary of items but got type \"" ++ pyTypeName v ++ "\"."

/-- DRF `Serializer.default_error_messages['invalid']`. -/
def invalidDataMsg (v : JVal) : String :=
  "Invalid data. Expected a dictionary, but got " ++ pyTypeName v ++ "."

/-- The outcome of running one DRF field/child validation: a validated
value, a raised `SkipField`, or a raised `ValidationError` with a detail. -/
inductive FieldDecode where
  | ok (v : JVal)
  | skip
  | err (detail : JVal)
deriving DecidableEq

/-- `JSONAPIResourceIdentifierSerializer.to_internal_value`
(serializers.py lines 254-264) under the parameterized dispatch
(`exclude_parameterized`, `partial=True`): the specific serializer chosen
by `type` validates the identifier, and only the ID value is returned
(`id_field.get_attribute(value)`).  A list is the to-many form, decoded
elementwise in order (`JSONAPIPrimaryDataSerializer.to_internal_value`,
lines 109-116).  The error details for a missing or unregistered `type`,
a missing `id`, or a non-mapping element stand in for the external
parameterized machinery's messages; no theorem depends on their text. -/
def identifierToInternalValueSingle (reg : Registry) : JVal → FieldDecode
  | .obj dm =>
      (match objGet dm "type" with
        | some (.str t) =>
            if (lookupSchema reg t).isSome then
              match objGet dm "id" with
              | some idv => .ok idv
              | none => .err (detailOf "identifier id missing")
            else .err (detailOf "unregistered resource type")
        | _ => .err (detailOf "identifier type missing"))
  | v => .err (detailOf (invalidDataMsg v))

/-- The to-many form: a list of identifiers is decoded elementwise in
order (`JSONAPIPrimaryDataSerializer.to_internal_value`, lines 109-116,
through the list serializer). -/
def identifierToInternalValue (reg : Registry) : JVal → FieldDecode
  | .arr items =>
      let results := items.map (fun x => identifierToInternalValueSingle reg x)
      if results.any (fun r => match r with | .ok _ => false | _ => true) then
        .err (.arr (results.map (fun r => match r with
          | .err e => e
          | _ => .obj [])))
      else
        .ok (.arr (results.filterMap (fun r => match r with
          | .ok v => some v
          | _ => none)))
  | v => identifierToInternalValueSingle reg v

/-- `JSONAPIRelationshipSerializer.to_internal_value` (lines 426-435): a
relationship object must carry at least one of `links`/`data`/`meta`;
the `data` member (when present) decodes through the identifier
serializer; when absent, `self.fields['data'].get_attribute(value)`
raises `SkipField` (`required=False`, no default).  A non-mapping value
fails DRF's `Serializer` dictionary check. -/
def relationshipToInternalValue (reg : Registry) : JVal → FieldDecode
  | .obj m =>
      if !(objHas m "links" || objHas m "data" || objHas m "meta") then
        .err (detailOf relMissingMustMsg)
      else
        match objGet m "data" with
        | some dv => identifierToInternalValue reg dv
        | none => .skip
  | v => .err (detailOf (invalidDataMsg v))

/-! ## The resource codec (`JSONAPIResourceSerializer`, lines 450-628) -/

/-- Outcome of `field.run_validation(member_value)` for the
`attributes`/`relationships` `DictField`s (lines 459-467): absent members
raise `SkipField` (`required=False`); non-dict values fail `not_a_dict`;
for `relationships` the child serializer validates each value in order
and the first child `ValidationError`/`SkipField` propagates.  `valid`
carries the member's entries and (for relationships) the decoded child
values. -/
inductive MemberRun where
  | absent
  | invalid (detail : JVal)
  | skipped
  | valid (entries : Obj) (decoded : Obj)
deriving DecidableEq

def attributesRun : Option JVal → MemberRun
  | none => .absent
  | some (.obj a) => .valid a a
  | some v => .invalid (detailOf (notADictMsg v))

/-- The relationships `DictField`'s child loop (dict-comprehension
order): first failure wins. -/
def relsChildrenRun (reg : Registry) : Obj → MemberRun
  | [] => .valid [] []
  | (k, v) :: rest =>
      match relationshipToInternalValue reg v with
      | .err e => .invalid e
      | .skip => .skipped
      | .ok idv =>
          match relsChildrenRun reg rest with
          | .valid es ds => .valid ((k, v) :: es) ((k, idv) :: ds)
          | other => other

def relationshipsRunMember (reg : Registry) : Option JVal → MemberRun
  | none => .absent
  | some (.obj r) =>
      match relsChildrenRun reg r with
      | .valid _ ds => .valid r ds
      | other => other
  | some v => .invalid (detailOf (notADictMsg v))

/-- The de-inflection loop (lines 514-519) under Python-2 `keys()`
snapshot semantics: every key popped and re-inserted under
`reverse_inflectors[inflector](key)` for the single active inflector
`parameterize`, whose registered reverse is `underscore`; the net effect
maps each key in order (distinct keys stay distinct for the claims'
inputs). -/
def deinflectKeys (m : Obj) : Obj := m.map (fun p => (underscore p.1, p.2))

/-- `dict.update`: existing keys are reassigned in place, new keys are
appended — how DRF's `set_value(ret, [], validated)` merges the
`source='*'` members into the flat value. -/
def objUpdate (base upd : Obj) : Obj :=
  (base.map (fun p =>
    match objGet upd p.1 with
    | some v => (p.1, v)
    | none => p)) ++
  upd.filter (fun q => !objHas base q.1)

/-- `exc.detail.setdefault(member, {})[field_name] = field_data;
del exc.detail[field_name]` (lines 535-542).  When the existing
`report[member]` is not a dict Python would raise `TypeError`; that
shape is unreachable for the inputs the theorems quantify over and the
report is returned unchanged. -/
def moveFieldUnder (member field : String) (report : Obj) : Obj :=
  match objGet report field with
  | none => report
  | some fieldData =>
      let removed := report.filter (fun p => p.1 ≠ field)
      match objGet removed member with
      | none => removed ++ [(member, .obj [(field, fieldData)])]
      | some (.obj sub) =>
          removed.map (fun p =>
            if p.1 = member then (member, .obj (sub ++ [(field, fieldData)])) else p)
      | some _ => report

/-- The `except` branch of `to_internal_value` (lines 524-543): walk
`parameter_serializers[0]` — the *first registered* specific serializer,
whatever type the data carried — and move each of its fields' errors
under `attributes` or `relationships` by the field's shape, leaving any
`id` error top-level. -/
def repartitionErrors (reg : Registry) (report : Obj) : Obj :=
  match reg with
  | [] => report
  | (_, sch) :: _ =>
      sch.foldl (fun rep f =>
        if f.name == "id" then rep
        else match f.kind with
          | .attr => moveFieldUnder "attributes" f.name rep
          | .rel _ => moveFieldUnder "relationships" f.name rep) report

/-- `OrderedDict` assignment `errors[key] = detail`: replace in place or
append. -/
def insertReplace (m : Obj) (k : String) (v : JVal) : Obj :=
  if m.any (fun p => p.1 == k) then
    m.map (fun p => if p.1 == k then (k, v) else p)
  else m ++ [(k, v)]

/-- The flat record a resource decodes to: the dispatched type together
with the specific serializer's validated fields, in schema order. -/
structure FlatRecord where
  type : String
  fields : Obj
deriving DecidableEq

/-- `super().to_internal_value(data)` of the resource serializer
(line 521): DRF's field loop over the writable fields `id` (UUIDField,
`required=False`; format validation not modelled), `type`
(`SerializerParameterField`, `required=True`), `attributes` and
`relationships` (lines 70-78 and 459-467), followed by the parameterized
dispatch to the specific serializer, which validates the merged flat
mapping against the type's schema (`required` checks) and returns the
validated fields in schema order.  Validation errors raise through the
re-partitioning branch (lines 524-543). -/
def resourceSuperToInternalValue (reg : Registry) (m : Obj) :
    Except Obj FlatRecord :=
  let aRun := attributesRun (objGet m "attributes")
  let rRun := relationshipsRunMember reg (objGet m "relationships")
  let typeErr : Obj :=
    match objGet m "type" with
    | none => [("type", detailOf requiredMsg)]
    | some (.str t) =>
        if (lookupSchema reg t).isSome then []
        else [("type", detailOf "unregistered resource type")]
    | some _ => [("type", detailOf "invalid resource type value")]
  let p1 : Obj :=
    typeErr ++
    (match aRun with
      | .invalid e => [("attributes", e)]
      | _ => []) ++
    (match rRun with
      | .invalid e => [("relationships", e)]
      | _ => [])
  if p1 ≠ [] then .error (repartitionErrors reg p1)
  else
    match objGet m "type" with
    | some (.str t) =>
        (match lookupSchema reg t with
          | some sch =>
              let merged : Obj :=
                objUpdate (objUpdate
                  (match objGet m "id" with
                    | some v => [("id", v)]
                    | none => [])
                  (match aRun with
                    | .valid a _ => a
                    | _ => []))
                  (match rRun with
                    | .valid _ ds => ds
                    | _ => [])
              let p2 : Obj := sch.foldl (fun errs f =>
                if f.required && (objGet merged f.name).isNone then
                  errs ++ [(f.name, detailOf requiredMsg)]
                else errs) []
              if p2 ≠ [] then .error (repartitionErrors reg p2)
              else .ok ⟨t, sch.foldl (fun acc f =>
                match objGet merged f.name with
                | some v => acc ++ [(f.name, v)]
                | none => acc) []⟩
          | none => .error (repartitionErrors reg [("type", detailOf "unregistered resource type")]))
    | _ => .error (repartitionErrors reg [("type", detailOf "invalid resource type value")])

/-- The post-`super()` validation on the member views (lines 547-573):
reserved field names in `attributes` then `relationships`, then
`attributes`/`relationships` name conflicts — the conflict error is
assigned to `errors["attributes"]`, overwriting any reserved-field error
stored there.  Multi-element intersections are rendered in the fixed
order `type`, `id` (resp. the attributes key order); Python iterates a
`set`, whose order is unspecified — the theorems only instantiate
singleton intersections. -/
def jvKeys : JVal → List String
  | .obj m => m.map (fun p => p.1)
  | _ => []

def resourcePostValidation (attrs rels : Option JVal) : Obj :=
  let errors : Obj := []
  let errors := match attrs with
    | none => errors
    | some v =>
        let reserved := ["type", "id"].filter (fun rk => (jvKeys v).contains rk)
        if reserved ≠ [] then
          insertReplace errors "attributes"
            (detailOf (reservedFieldMsg "attributes" reserved))
        else errors
  let errors := match rels with
    | none => errors
    | some v =>
        let reserved := ["type", "id"].filter (fun rk => (jvKeys v).contains rk)
        if reserved ≠ [] then
          insertReplace errors "relationships"
            (detailOf (reservedFieldMsg "relationships" reserved))
        else errors
  let errors := match attrs, rels with
    | some a, some r =>
        let conflicts := (jvKeys a).filter (fun k => (jvKeys r).contains k)
        if conflicts ≠ [] then
          insertReplace errors "attributes" (detailOf (fieldConflictsMsg conflicts))
        else errors
    | _, _ => errors
  errors

/-- The in-place effect of the de-inflection loop (lines 503-519) on the
caller's mapping: for each of `attributes`/`relationships` whose
`run_validation` passes, the member's keys are rewritten to their
de-inflected forms; everything else is untouched. -/
def deinflectMembers (reg : Registry) (data : Obj) : Obj :=
  let data1 := match attributesRun (objGet data "attributes") with
    | .valid a _ =>
        data.map (fun p =>
          if p.1 = "attributes" then ("attributes", .obj (deinflectKeys a)) else p)
    | _ => data
  match relationshipsRunMember reg (objGet data "relationships") with
    | .valid r _ =>
        data1.map (fun p =>
          if p.1 = "relationships" then ("relationships", .obj (deinflectKeys r)) else p)
    | _ => data1

/-- `JSONAPIResourceSerializer.to_internal_value` (lines 495-575) on a
single resource object, with the post-call state of the caller's mapping
as second component: the de-inflection loop (lines 514-519) mutates the
`attributes`/`relationships` member dictionaries in place whenever the
member's `run_validation` passes, before `super()` and the
post-validation run — so the input is mutated even when the decode
fails later. -/
def resourceToInternalValueSt (reg : Registry) (data : Obj) :
    Except Obj FlatRecord × Obj :=
  let data2 := deinflectMembers reg data
  match resourceSuperToInternalValue reg data2 with
  | .error e => (.error e, data2)
  | .ok value =>
      let postErrors :=
        resourcePostValidation (objGet data2 "attributes") (objGet data2 "relationships")
      if postErrors ≠ [] then (.error postErrors, data2)
      else (.ok value, data2)

/-- The decode result alone. -/
def resourceToInternalValue (reg : Registry) (data : Obj) :
    Except Obj FlatRecord :=
  (resourceToInternalValueSt reg data).1

/-- `JSONAPIRelationshipSerializer.to_representation` (lines 437-447) of a
to-one related value: the identifier object under `data`, its `type`
taken from the field's declared related type (resolving a bare related id
to its resource type is the generic-relations machinery's job, outside
this repository — spec §4.4 and the §6 field-schema collaborator).  The
relationship's `links` need URL resolution from the HTTP layer and are
not modelled. -/
def relationshipToRepresentation (relatedType : String) (v : JVal) : JVal :=
  .obj [("data", .obj [("type", .str relatedType), ("id", v)])]

/-- `JSONAPIResourceSerializer.to_representation` (lines 577-628) on a
single flat record, without request context: render `id` and `type`,
then partition the specific serializer's fields — skipping `id` — into
`attributes` and `relationships` by their declared shape, inflecting each
field name with the active `field_inflectors` (`[inflection.parameterize]`,
line 36); fields with no value are skipped, and empty buckets are
omitted.  The explicitly-optional `links`/`meta` members need the HTTP
layer resp. non-standard metadata and are not modelled; the claims'
round-trip laws are stated modulo them.  Member order inside rendered
objects (`id`, `type`, buckets) follows field declaration order. -/
def resourceToRepresentation (reg : Registry) (r : FlatRecord) : Obj :=
  match lookupSchema reg r.type with
  | none => []
  | some sch =>
      let base : Obj :=
        (match objGet r.fields "id" with
          | some v => [("id", v)]
          | none => []) ++ [("type", .str r.type)]
      let buckets := sch.foldl (fun (st : Obj × Obj) f =>
        if f.name == "id" then st
        else match f.kind, objGet r.fields f.name with
          | _, none => st
          | .attr, some v => (st.1 ++ [(parameterize f.name, v)], st.2)
          | .rel rt, some v =>
              (st.1, st.2 ++ [(parameterize f.name, relationshipToRepresentation rt v)]))
        ([], [])
      base ++
        (if buckets.1 ≠ [] then [("attributes", .obj buckets.1)] else []) ++
        (if buckets.2 ≠ [] then [("relationships", .obj buckets.2)] else [])

/-! ## The document codec (`JSONAPIDocumentSerializer`, lines 731-894) -/

/-- The `(type, id)` pair looked up from a resource by
`_validate_duplicates` — `serializers.empty` is `none`. -/
abbrev TypeId := Option JVal × Option JVal

/-- `str()` of the values interpolated into the duplicate pointer
`'/{0}/{1}/{2}'.format(member, *type_id)`.  Only the string branch is
exercised by any theorem; the other branches stand in for Python's
rendering of non-string lookups. -/
def pyStrOpt : Option JVal → String
  | some (.str s) => s
  | some .null => "None"
  | some (.arr _) => "<list>"
  | some (.obj _) => "<dict>"
  | none => "<empty>"

/-- `repr()` of the values interpolated into the duplicate message.  Only
the string branch is exercised by any theorem. -/
def pyReprOpt : Option JVal → String
  | some (.str s) => pyRepr s
  | some .null => "None"
  | some (.arr _) => "<list>"
  | some (.obj _) => "<dict>"
  | none => "<empty>"

def dupPointer (member : String) (tid : TypeId) : String :=
  "/" ++ member ++ "/" ++ pyStrOpt tid.1 ++ "/" ++ pyStrOpt tid.2

/-- One resource step of `_validate_duplicates` (lines 879-893): look up
the `(type, id)` pair, record an error keyed by the JSON-Pointer-style
path when the pair was already seen, and add the pair to the seen set. -/
def validateDuplicatesStep (member : String) (st : Obj × List TypeId)
    (res : JVal) : Obj × List TypeId :=
  let tid : TypeId := (jvGet res "type", jvGet res "id")
  let errs :=
    if st.2.contains tid then
      insertReplace st.1 (dupPointer member tid)
        (detailOf (duplicateResourceMsg member (pyReprOpt tid.1) (pyReprOpt tid.2)))
    else st.1
  (errs, st.2 ++ [tid])

/-- `primary = data.get('data', []); if not isinstance(primary, list):
primary = [primary]` (lines 876-878). -/
def primaryAsList (data : Obj) : List JVal :=
  match objGet data "data" with
  | none => []
  | some (.arr l) => l
  | some v => [v]

/-- `JSONAPIDocumentSerializer._validate_duplicates` (lines 871-894):
walk `('data', primary)` followed by the given member/resource-list
pairs, accumulating duplicate errors into the report. -/
def _validate_duplicates (data : Obj) (errors : Obj)
    (memberResources : List (String × List JVal)) : Obj :=
  ((("data", primaryAsList data) :: memberResources).foldl
    (fun st mr => mr.2.foldl (validateDuplicatesStep mr.1) st)
    (errors, ([] : List TypeId))).1

/-- `MUST_HAVE_ONE_OF` (line 737). -/
def docMustHaveOneOf : List String := ["data", "errors", "meta"]

/-- The document's primary data: one resource or an ordered list. -/
inductive PrimaryValue where
  | single (r : FlatRecord)
  | many (rs : List FlatRecord)
deriving DecidableEq

/-- `JSONAPIPrimaryDataSerializer.run_validation` on the `data` member
(lines 100-116): a list dispatches to the list serializer — per-element
decode in order, with the DRF list-serializer error shape (`{}` for valid
elements, the detail for invalid ones) — anything else decodes as a
single resource (a non-mapping failing DRF's dictionary check). -/
def primaryRunValidation (reg : Registry) : JVal → Except JVal PrimaryValue
  | .arr xs =>
      let results := xs.map (fun x =>
        match x with
        | .obj m => resourceToInternalValue reg m
        | v => .error [(nonFieldErrorsKey, detailOf (invalidDataMsg v))])
      if results.any (fun r => match r with | .error _ => true | .ok _ => false) then
        .error (.arr (results.map (fun r =>
          match r with
          | .error e => .obj e
          | .ok _ => .obj [])))
      else
        .ok (.many (results.filterMap (fun r =>
          match r with
          | .ok v => some v
          | .error _ => none)))
  | .obj m =>
      (match resourceToInternalValue reg m with
        | .error e => .error (.obj e)
        | .ok r => .ok (.single r))
  | v => .error (.obj [(nonFieldErrorsKey, detailOf (invalidDataMsg v))])

/-- The document-wide structural checks of `to_internal_value`
(lines 804-829), in order: `errors`/`data` exclusivity, the
`MUST_HAVE_ONE_OF` check, the rejection of `included` on write, then
duplicate detection over the primary data. -/
def docStructuralErrors (data : Obj) : Obj :=
  let errors : Obj := []
  let errors :=
    if (objGet data "errors").isSome && (objGet data "data").isSome then
      insertReplace errors nonFieldErrorsKey (detailOf errorsAndDataMsg)
    else errors
  let errors :=
    if !(docMustHaveOneOf.any (fun k => objHas data k)) then
      insertReplace errors nonFieldErrorsKey (detailOf docMissingMustMsg)
    else errors
  let errors :=
    match objGet data "included" with
    | none => errors
    | some _ => insertReplace errors "included" (detailOf includedToInternalMsg)
  _validate_duplicates data errors []

/-- `JSONAPIDocumentSerializer.to_internal_value` (lines 800-835):
the structural checks raise the accumulated report if any; otherwise
DRF's field loop runs the only writable field, `data` (`errors`,
`jsonapi`, `included`, `links` and `meta` are all `read_only` and thus
skipped on input), and the decoded primary data is returned (`none` for
a data-less document). -/
def docToInternalValue (reg : Registry) (data : Obj) :
    Except Obj (Option PrimaryValue) :=
  let errors := docStructuralErrors data
  if errors ≠ [] then .error errors
  else
    match objGet data "data" with
    | none => .ok none
    | some v =>
        (match primaryRunValidation reg v with
          | .error e => .error [("data", e)]
          | .ok pv => .ok (some pv))

/-- A failing structural check makes decode fail with the accumulated
report. -/
theorem docToInternalValue_error (reg : Registry) (data : Obj)
    (h : docStructuralErrors data ≠ []) :
    docToInternalValue reg data = .error (docStructuralErrors data) := by
  simp only [docToInternalValue]
  rw [if_pos h]

/-- `data.get('included', [])` over the rendered document (line 865); a
non-list `included` is outside the modelled domain. -/
def includedAsList (data : Obj) : List JVal :=
  match objGet data "included" with
  | some (.arr l) => l
  | _ => []

/-- The post-processing half of
`JSONAPIDocumentSerializer.to_representation` (lines 860-869): re-run the
duplicate-resource check over the rendered output shape — primary `data`
plus the `included` member — and fail with the accumulated report if it
is violated, otherwise return the rendered document unchanged. -/
def docToRepresentationPost (data : Obj) : Except Obj Obj :=
  let errors := _validate_duplicates data [] [("included", includedAsList data)]
  if errors ≠ [] then .error errors else .ok data

/-! ## Lookup-preservation lemmas -/

theorem objGet_cons (p : String × JVal) (t : Obj) (k : String) :
    objGet (p :: t) k = if p.1 = k then some p.2 else objGet t k := by
  simp only [objGet, List.find?_cons]
  by_cases h : p.1 = k
  · simp [h]
  · simp [h, beq_eq_false_iff_ne.mpr h]

theorem objGet_append (a b : Obj) (k : String) :
    objGet (a ++ b) k = (objGet a k).or (objGet b k) := by
  induction a with
  | nil => simp [objGet]
  | cons p t ih =>
      rw [List.cons_append, objGet_cons, objGet_cons]
      by_cases h : p.1 = k
      · simp [h]
      · simp [h, ih]

theorem objGet_map_keyReplace (data : Obj) (k0 k : String) (v : JVal)
    (h : k ≠ k0) :
    objGet (data.map (fun p => if p.1 = k0 then (k0, v) else p)) k
      = objGet data k := by
  induction data with
  | nil => rfl
  | cons p t ih =>
      simp only [List.map_cons]
      by_cases hp : p.1 = k0
      · rw [if_pos hp, objGet_cons, objGet_cons, ih]
        have h1 : ¬((k0, v).1 = k) := fun he => h he.symm
        rw [if_neg h1, if_neg (fun he => h (hp.symm.trans he).symm)]
      · rw [if_neg hp, objGet_cons, objGet_cons, ih]

theorem objGet_filter_ne (data : Obj) (field k : String) (h : k ≠ field) :
    objGet (data.filter (fun p => p.1 ≠ field)) k = objGet data k := by
  induction data with
  | nil => rfl
  | cons p t ih =>
      by_cases hp : p.1 = field
      · rw [List.filter_cons_of_neg (by simp [hp]), objGet_cons, ih,
          if_neg (fun he => h (he.symm.trans hp))]
      · rw [List.filter_cons_of_pos (by simp [hp]), objGet_cons, objGet_cons, ih]

theorem objGet_moveFieldUnder (member field k : String) (report : Obj)
    (hk : k ≠ field) (hkm : k ≠ member) :
    objGet (moveFieldUnder member field report) k = objGet report k := by
  unfold moveFieldUnder
  cases hf : objGet report field with
  | none => rfl
  | some fieldData =>
      simp only
      cases hm : objGet (report.filter (fun p => p.1 ≠ field)) member with
      | none =>
          simp only [hm]
          rw [objGet_append, objGet_filter_ne report field k hk, objGet_cons,
            if_neg (fun he => hkm he.symm)]
          simp [objGet]
      | some sub =>
          cases sub with
          | obj subEntries =>
              simp only [hm]
              rw [objGet_map_keyReplace _ member k _ hkm,
                objGet_filter_ne report field k hk]
          | null => simp only [hm]
          | str s => simp only [hm]
          | arr l => simp only [hm]

theorem objGet_repartition (reg : Registry) (report : Obj) (k : String)
    (hk1 : k ≠ "attributes") (hk2 : k ≠ "relationships")
    (hsch : ∀ p ∈ reg.take 1, ∀ f ∈ p.2, f.name ≠ k) :
    objGet (repartitionErrors reg report) k = objGet report k := by
  unfold repartitionErrors
  cases reg with
  | nil => rfl
  | cons hd tl =>
      obtain ⟨tname, sch⟩ := hd
      have hs : ∀ f ∈ sch, f.name ≠ k := by
        intro f hf
        exact hsch (tname, sch) (by simp [List.take]) f hf
      clear hsch
      induction sch generalizing report with
      | nil => rfl
      | cons f fs ih =>
          simp only [List.foldl_cons]
          have hf : f.name ≠ k := hs f (List.mem_cons_self f fs)
          have hrec := fun (rep : Obj) =>
            ih rep (fun g hg => hs g (List.mem_cons_of_mem _ hg))
          by_cases hid : f.name == "id"
          · rw [if_pos hid]
            exact hrec report
          · rw [if_neg hid]
            cases hkind : f.kind with
            | attr =>
                rw [hrec (moveFieldUnder "attributes" f.name report),
                  objGet_moveFieldUnder _ _ _ _ (fun he => hf he.symm) hk1]
            | rel rt =>
                rw [hrec (moveFieldUnder "relationships" f.name report),
                  objGet_moveFieldUnder _ _ _ _ (fun he => hf he.symm) hk2]

theorem objGet_deinflectMembers (reg : Registry) (data : Obj) {k : String}
    (h1 : k ≠ "attributes") (h2 : k ≠ "relationships") :
    objGet (deinflectMembers reg data) k = objGet data k := by
  simp only [deinflectMembers]
  cases attributesRun (objGet data "attributes") <;>
    cases relationshipsRunMember reg (objGet data "relationships") <;>
    simp only [] <;>
    first
      | rfl
      | rw [objGet_map_keyReplace _ _ _ _ h2, objGet_map_keyReplace _ _ _ _ h1]
      | rw [objGet_map_keyReplace _ _ _ _ h1]
      | rw [objGet_map_keyReplace _ _ _ _ h2]

/-! ## The fixture registry used by witnesses and counterexamples

A two-type schema in the style of the example application
(`django_rest_json_api_example`): `articles` with a required `title`, an
optional `description` and a to-one `author` relationship to `people`;
`people` with a required `first_name` and an optional `last_name`.  (The
example's to-many `comments` field is not needed by any witness and is
omitted.) -/
def fixtureRegistry : Registry :=
  [("articles",
    [⟨"id", .attr, false⟩, ⟨"title", .attr, true⟩,
     ⟨"description", .attr, false⟩, ⟨"author", .rel "people", false⟩]),
   ("people",
    [⟨"id", .attr, false⟩, ⟨"first_name", .attr, true⟩,
     ⟨"last_name", .attr, false⟩])]

/-- **C4 counterexample.**  The claim says decode rejects a resource
object whenever `id` is absent; but the `id` field is declared
`required=False` (serializers.py lines 71-74), so a resource carrying
only `type` and valid attributes — no `id` — decodes successfully. -/
theorem c4_missing_id_accepted_counterexample :
    resourceToInternalValue fixtureRegistry
        [("type", .str "articles"), ("attributes", .obj [("title", .str "T")])]
      = .ok ⟨"articles", [("title", .str "T")]⟩ := rfl

/-- **C4 (amended).**  The Resource Codec's decode rejects a resource
object whose `type` member is absent, reporting DRF's `required` error
under the `type` key (which the re-partitioning branch leaves at the top
level); the `id` member is declared `required=False`, so its absence
alone does not make decode fail (see the counterexample, where a
resource without `id` decodes successfully). -/
theorem c4_missing_type_required (reg : Registry) (m : Obj)
    (hty : objGet m "type" = none)
    (hsch : ∀ p ∈ reg.take 1, ∀ f ∈ p.2, f.name ≠ "type") :
    ∃ e, resourceToInternalValue reg m = .error e ∧
      objGet e "type" = some (detailOf requiredMsg) := by
  have hty2 : objGet (deinflectMembers reg m) "type" = none := by
    rw [objGet_deinflectMembers reg m (by decide) (by decide), hty]
  refine ⟨repartitionErrors reg
      (("type", detailOf requiredMsg) ::
        ((match attributesRun (objGet (deinflectMembers reg m) "attributes") with
          | .invalid e => [("attributes", e)]
          | _ => ([] : Obj)) ++
         (match relationshipsRunMember reg
             (objGet (deinflectMembers reg m) "relationships") with
          | .invalid e => [("relationships", e)]
          | _ => ([] : Obj)))), ?_, ?_⟩
  · simp only [resourceToInternalValue, resourceToInternalValueSt,
      resourceSuperToInternalValue, hty2]
    simp only [List.singleton_append, List.cons_append, ne_eq,
      reduceCtorEq, not_false_eq_true, if_true]
    rfl
  · rw [objGet_repartition reg _ "type" (by decide) (by decide) hsch,
      objGet_cons, if_pos rfl]

/-- Witness for the amended C4 at a concrete resource without `type`. -/
theorem c4_missing_type_required_witness :
    ∃ e, resourceToInternalValue fixtureRegistry
        [("attributes", .obj [("title", .str "T")])] = .error e ∧
      objGet e "type" = some (detailOf requiredMsg) :=
  c4_missing_type_required fixtureRegistry
    [("attributes", .obj [("title", .str "T")])] rfl (by decide)

/-- The post-call state of the input is exactly the de-inflection
effect, whether decode succeeds or fails. -/
theorem resourceToInternalValueSt_snd (reg : Registry) (data : Obj) :
    (resourceToInternalValueSt reg data).2 = deinflectMembers reg data := by
  simp only [resourceToInternalValueSt]
  cases resourceSuperToInternalValue reg (deinflectMembers reg data) with
  | error e => rfl
  | ok v =>
      simp only
      split <;> rfl

/-- **C8 counterexample.**  Decode mutates the caller-supplied document:
on a resource whose `attributes` carry the dashed wire name
`"first-name"`, the decode succeeds *and* the caller's mapping now holds
the de-inflected key `"first_name"` — the `attributes` sub-object was
rewritten in place (serializers.py lines 514-519). -/
theorem c8_copy_on_transform_counterexample :
    (resourceToInternalValueSt fixtureRegistry
        [("type", .str "people"),
         ("attributes", .obj [("first-name", .str "Dan"), ("last_name", .str "G")])]).1
      = .ok ⟨"people", [("first_name", .str "Dan"), ("last_name", .str "G")]⟩ ∧
    (resourceToInternalValueSt fixtureRegistry
        [("type", .str "people"),
         ("attributes", .obj [("first-name", .str "Dan"), ("last_name", .str "G")])]).2
      ≠ [("type", .str "people"),
         ("attributes", .obj [("first-name", .str "Dan"), ("last_name", .str "G")])] := by
  constructor
  · rfl
  · decide

/-- **C8 (amended).**  Decode's only effect on the caller-supplied
mapping is the in-place de-inflection of the `attributes` and
`relationships` member keys (when the member's validation passes): every
other member is left untouched, and a document carrying neither member
is returned entirely unchanged — whether the decode succeeds or fails. -/
theorem c8_copy_on_transform_amended (reg : Registry) (data : Obj) :
    (resourceToInternalValueSt reg data).2 = deinflectMembers reg data ∧
    (∀ k, k ≠ "attributes" → k ≠ "relationships" →
      objGet (resourceToInternalValueSt reg data).2 k = objGet data k) ∧
    (objGet data "attributes" = none → objGet data "relationships" = none →
      (resourceToInternalValueSt reg data).2 = data) := by
  refine ⟨resourceToInternalValueSt_snd reg data, ?_, ?_⟩
  · intro k h1 h2
    rw [resourceToInternalValueSt_snd, objGet_deinflectMembers reg data h1 h2]
  · intro hA hR
    rw [resourceToInternalValueSt_snd]
    simp only [deinflectMembers, hA, hR, attributesRun, relationshipsRunMember]

/-- Witness for the amended C8: a document with neither member comes back
unchanged. -/
theorem c8_copy_on_transform_amended_witness :
    (resourceToInternalValueSt fixtureRegistry [("type", .str "articles")]).2
      = [("type", .str "articles")] :=
  (c8_copy_on_transform_amended fixtureRegistry
    [("type", .str "articles")]).2.2 rfl rfl

theorem objGet_map_replaceVal (m : Obj) (k : String) (v : JVal)
    (h : m.any (fun p => p.1 == k) = true) :
    objGet (m.map (fun p => if p.1 == k then (k, v) else p)) k = some v := by
  induction m with
  | nil => simp at h
  | cons p t ih =>
      simp only [List.any_cons, Bool.or_eq_true] at h
      simp only [List.map_cons]
      by_cases hp : (p.1 == k) = true
      · rw [if_pos hp, objGet_cons, if_pos rfl]
      · rw [if_neg hp, objGet_cons, if_neg (fun he => hp (beq_iff_eq.mpr he))]
        exact ih (h.resolve_left hp)

theorem objGet_map_replaceVal_other (m : Obj) (k k' : String) (v : JVal)
    (h : k' ≠ k) :
    objGet (m.map (fun p => if p.1 == k then (k, v) else p)) k'
      = objGet m k' := by
  induction m with
  | nil => rfl
  | cons p t ih =>
      simp only [List.map_cons]
      by_cases hp : (p.1 == k) = true
      · rw [if_pos hp, objGet_cons, objGet_cons, ih,
          if_neg (fun he => h he.symm),
          if_neg (fun he => h ((beq_iff_eq.mp hp ▸ he : k = k')).symm)]
      · rw [if_neg hp, objGet_cons, objGet_cons, ih]

theorem objGet_none_of_not_any (m : Obj) (k : String)
    (h : ¬ (m.any (fun p => p.1 == k) = true)) :
    objGet m k = none := by
  induction m with
  | nil => rfl
  | cons p t ih =>
      simp only [List.any_cons, Bool.or_eq_true, not_or] at h
      rw [objGet_cons, if_neg (fun he => h.1 (beq_iff_eq.mpr he))]
      exact ih (by simpa using h.2)

theorem objGet_insertReplace_same (m : Obj) (k : String) (v : JVal) :
    objGet (insertReplace m k v) k = some v := by
  unfold insertReplace
  split
  · exact objGet_map_replaceVal m k v (by assumption)
  · rename_i h
    rw [objGet_append, objGet_none_of_not_any m k h, objGet_cons, if_pos rfl]
    rfl

theorem objGet_insertReplace_other (m : Obj) (k k' : String) (v : JVal)
    (h : k' ≠ k) :
    objGet (insertReplace m k v) k' = objGet m k' := by
  unfold insertReplace
  split
  · exact objGet_map_replaceVal_other m k k' v h
  · rw [objGet_append, objGet_cons, if_neg (fun he => h he.symm)]
    simp [objGet]

/-- **C10.**  In the post-`super()` validation (serializers.py lines
547-573), when the (de-inflected) `attributes` contain a reserved name
and the `attributes`/`relationships` key sets also intersect, the
field-name-conflict error is assigned to `errors["attributes"]`
(line 570), overwriting the reserved-field error stored there at
line 560 — so only the conflict error surfaces under `attributes`, while
a reserved-field error for `relationships` is still reported under its
own key.  The closing conjunct runs the whole decode on the fixture
mirroring the repository's `test_field_reserved_conflict_validation`. -/
theorem c10_conflict_overwrites_reserved (a r : Obj)
    (hres : (["type", "id"].filter (fun rk => (jvKeys (.obj a)).contains rk)) ≠ [])
    (hconf : ((jvKeys (.obj a)).filter (fun k => (jvKeys (.obj r)).contains k)) ≠ []) :
    (objGet (resourcePostValidation (some (.obj a)) (some (.obj r))) "attributes"
      = some (detailOf (fieldConflictsMsg
          ((jvKeys (.obj a)).filter (fun k => (jvKeys (.obj r)).contains k)))) ∧
    ((["type", "id"].filter (fun rk => (jvKeys (.obj r)).contains rk)) ≠ [] →
      objGet (resourcePostValidation (some (.obj a)) (some (.obj r))) "relationships"
        = some (detailOf (reservedFieldMsg "relationships"
            (["type", "id"].filter (fun rk => (jvKeys (.obj r)).contains rk)))))) ∧
    resourceToInternalValue fixtureRegistry
        [("type", .str "articles"),
         ("attributes", .obj [("type", .str "articles"), ("title", .str "T")]),
         ("relationships", .obj
           [("type", .obj [("data", .obj [("type", .str "people"), ("id", .str "u9")])]),
            ("author", .obj [("data", .obj [("type", .str "people"), ("id", .str "u9")])])])]
      = .error [("attributes", detailOf (fieldConflictsMsg ["type"])),
                ("relationships", detailOf (reservedFieldMsg "relationships" ["type"]))] := by
  refine ⟨?_, rfl⟩
  simp only [resourcePostValidation]
  rw [if_pos hres]
  by_cases hrr :
      (["type", "id"].filter (fun rk => (jvKeys (.obj r)).contains rk)) ≠ []
  · rw [if_pos hrr, if_pos hconf]
    refine ⟨objGet_insertReplace_same _ _ _, fun _ => ?_⟩
    rw [objGet_insertReplace_other _ _ _ _ (by decide), objGet_insertReplace_same]
  · rw [if_neg hrr, if_pos hconf]
    exact ⟨objGet_insertReplace_same _ _ _, fun hc => absurd hc hrr⟩

/-- Witness for C10 at the concrete members of the repository's test
(`attributes` carrying the reserved `type`, `relationships` carrying the
reserved `type` which also conflicts). -/
theorem c10_conflict_overwrites_reserved_witness :
    objGet (resourcePostValidation
        (some (.obj [("type", .str "articles"), ("title", .str "T")]))
        (some (.obj [("type", .null), ("author", .null)]))) "attributes"
      = some (detailOf (fieldConflictsMsg
          ((jvKeys (.obj [("type", .str "articles"), ("title", .str "T")])).filter
            (fun k => (jvKeys (.obj [("type", .null), ("author", .null)])).contains k)))) :=
  ((c10_conflict_overwrites_reserved
      [("type", .str "articles"), ("title", .str "T")]
      [("type", .null), ("author", .null)]
      (by decide) (by decide)).1).1

theorem objHas_eq_isSome (m : Obj) (k : String) :
    objHas m k = (objGet m k).isSome := by
  induction m with
  | nil => rfl
  | cons p t ih =>
      rw [objGet_cons]
      simp only [objHas, List.any_cons]
      by_cases hp : p.1 = k
      · simp [hp]
      · simp only [if_neg hp, beq_eq_false_iff_ne.mpr hp, Bool.false_or]
        exact ih

theorem dupPointer_ne_of_head (member : String) (tid : TypeId) {k : String}
    (hk : k.data.head? ≠ some '/') : dupPointer member tid ≠ k := by
  intro he
  apply hk
  rw [← he]
  unfold dupPointer
  rw [String.data_append, String.data_append, String.data_append]
  rfl

theorem objGet_dupStep (member : String) (st : Obj × List TypeId) (res : JVal)
    (k : String) (hk : k.data.head? ≠ some '/') :
    objGet (validateDuplicatesStep member st res).1 k = objGet st.1 k := by
  unfold validateDuplicatesStep
  simp only
  split
  · exact objGet_insertReplace_other _ _ _ _
      (fun he => dupPointer_ne_of_head member _ hk he.symm)
  · rfl

theorem objGet_dupFoldMember (member : String) (k : String)
    (hk : k.data.head? ≠ some '/') :
    ∀ (resources : List JVal) (st : Obj × List TypeId),
      objGet (resources.foldl (validateDuplicatesStep member) st).1 k
        = objGet st.1 k
  | [], _ => rfl
  | res :: rest, st => by
      rw [List.foldl_cons,
        objGet_dupFoldMember member k hk rest (validateDuplicatesStep member st res),
        objGet_dupStep member st res k hk]

theorem objGet_validate_duplicates (k : String)
    (hk : k.data.head? ≠ some '/') :
    ∀ (mrs : List (String × List JVal)) (errors : Obj) (seen : List TypeId),
      objGet ((mrs.foldl (fun st mr => mr.2.foldl (validateDuplicatesStep mr.1) st)
        (errors, seen)).1) k = objGet errors k
  | [], _, _ => rfl
  | mr :: rest, errors, seen => by
      rw [List.foldl_cons]
      have h2 := objGet_validate_duplicates k hk rest
        (mr.2.foldl (validateDuplicatesStep mr.1) (errors, seen)).1
        (mr.2.foldl (validateDuplicatesStep mr.1) (errors, seen)).2
      rw [show ((mr.2.foldl (validateDuplicatesStep mr.1) (errors, seen)).1,
          (mr.2.foldl (validateDuplicatesStep mr.1) (errors, seen)).2)
          = mr.2.foldl (validateDuplicatesStep mr.1) (errors, seen) from rfl] at h2
      rw [h2, objGet_dupFoldMember mr.1 k hk mr.2 (errors, seen)]

theorem objGet_ne_nil_of_some {m : Obj} {k : String} {v : JVal}
    (h : objGet m k = some v) : m ≠ [] := by
  intro he
  subst he
  simp [objGet] at h

theorem docStructuralErrors_nonfield (doc : Obj)
    (hd : (objGet doc "data").isSome = true)
    (he : (objGet doc "errors").isSome = true) :
    objGet (docStructuralErrors doc) nonFieldErrorsKey
      = some (detailOf errorsAndDataMsg) := by
  have hany : docMustHaveOneOf.any (fun k => objHas doc k) = true := by
    simp only [docMustHaveOneOf, List.any_cons, Bool.or_eq_true]
    left
    rw [objHas_eq_isSome, hd]
  simp only [docStructuralErrors, hd, he, hany, Bool.and_self, Bool.not_true,
    Bool.false_eq_true, if_false, if_true]
  unfold _validate_duplicates
  rw [objGet_validate_duplicates nonFieldErrorsKey (by decide)
    [("data", primaryAsList doc)]]
  cases hinc : objGet doc "included" with
  | none =>
      simp only
      exact objGet_insertReplace_same _ _ _
  | some v =>
      simp only
      rw [objGet_insertReplace_other _ _ _ _ (by decide)]
      exact objGet_insertReplace_same _ _ _

/-- **C3.**  For every input document in which both the `data` member and
the `errors` member are present — whatever any other member, `meta`
included, contains — document decode fails, and the accumulated report
carries the errors-and-data conflict message under DRF's non-field
errors key. -/
theorem c3_errors_and_data_conflict (reg : Registry) (doc : Obj)
    (hd : (objGet doc "data").isSome = true)
    (he : (objGet doc "errors").isSome = true) :
    docToInternalValue reg doc = .error (docStructuralErrors doc) ∧
      objGet (docStructuralErrors doc) nonFieldErrorsKey
        = some (detailOf errorsAndDataMsg) := by
  have hnf := docStructuralErrors_nonfield doc hd he
  exact ⟨docToInternalValue_error reg doc (objGet_ne_nil_of_some hnf), hnf⟩

/-- Witness for C3: the spec's own scenario `{"data":{},"errors":[{}]}`,
with a non-empty `meta` for good measure. -/
theorem c3_errors_and_data_conflict_witness :
    docToInternalValue fixtureRegistry
        [("data", .obj []), ("errors", .arr [.obj []]),
         ("meta", .obj [("note", .str "x")])]
      = .error (docStructuralErrors
          [("data", .obj []), ("errors", .arr [.obj []]),
           ("meta", .obj [("note", .str "x")])]) ∧
      objGet (docStructuralErrors
          [("data", .obj []), ("errors", .arr [.obj []]),
           ("meta", .obj [("note", .str "x")])]) nonFieldErrorsKey
        = some (detailOf errorsAndDataMsg) :=
  c3_errors_and_data_conflict fixtureRegistry
    [("data", .obj []), ("errors", .arr [.obj []]),
     ("meta", .obj [("note", .str "x")])] rfl rfl

/-! ## Duplicate-detection lemmas (claim C2) -/

/-- The `(type, id)` pair `_validate_duplicates` looks up. -/
def tidOf (res : JVal) : TypeId := (jvGet res "type", jvGet res "id")

def slashFree (s : String) : Prop := '/' ∉ s.data

instance (s : String) : Decidable (slashFree s) := by
  unfold slashFree; infer_instance

/-- A resource whose looked-up `type` and `id` are slash-free strings —
the shape JSON:API resource objects have on the wire. -/
def strTid (res : JVal) : Prop :=
  ∃ t i, tidOf res = (some (.str t), some (.str i)) ∧ slashFree t ∧ slashFree i

theorem dupFold_snd (member : String) :
    ∀ (l : List JVal) (st : Obj × List TypeId),
      (l.foldl (validateDuplicatesStep member) st).2 = st.2 ++ l.map tidOf
  | [], st => by simp
  | res :: rest, st => by
      rw [List.foldl_cons, dupFold_snd member rest]
      simp only [validateDuplicatesStep, tidOf, List.map_cons, List.append_assoc,
        List.cons_append, List.nil_append]

theorem append_slash_inj :
    ∀ {a c : List Char} {b d : List Char}, '/' ∉ a → '/' ∉ c →
      a ++ '/' :: b = c ++ '/' :: d → a = c ∧ b = d := by
  intro a
  induction a with
  | nil =>
      intro c b d _ hc h
      cases c with
      | nil => simpa using h
      | cons x xs =>
          simp only [List.nil_append, List.cons_append, List.cons.injEq] at h
          exact absurd (h.1 ▸ List.mem_cons_self x xs) hc
  | cons x xs ih =>
      intro c b d ha hc h
      cases c with
      | nil =>
          simp only [List.cons_append, List.nil_append, List.cons.injEq] at h
          exact absurd (h.1 ▸ List.mem_cons_self x xs) (h.1 ▸ ha)
      | cons y ys =>
          simp only [List.cons_append, List.cons.injEq] at h
          obtain ⟨rfl, h2⟩ := h
          have := ih (fun hm => ha (List.mem_cons_of_mem _ hm))
            (fun hm => hc (List.mem_cons_of_mem _ hm)) h2
          exact ⟨by rw [this.1], this.2⟩

theorem dupPointer_inj (member t i t' i' : String)
    (hsf : slashFree t ∧ slashFree i) (hsf' : slashFree t' ∧ slashFree i')
    (h : dupPointer member (some (.str t'), some (.str i'))
      = dupPointer member (some (.str t), some (.str i))) :
    t' = t ∧ i' = i := by
  simp only [dupPointer, pyStrOpt] at h
  have hd := congrArg String.data h
  simp only [String.data_append, List.append_assoc] at hd
  have hd2 := List.append_cancel_left hd
  have hd3 := List.append_cancel_left hd2
  have hd4 := List.append_cancel_left hd3
  simp only [List.singleton_append] at hd4
  have := append_slash_inj hsf'.1 hsf.1 hd4
  refine ⟨?_, ?_⟩
  · have h1 := this.1
    cases t; cases t'
    simpa [String.ext_iff] using h1
  · have h2 := this.2
    cases i; cases i'
    simpa [String.ext_iff] using h2

/-- Later steps preserve a recorded duplicate entry, provided any later
resource rendering to the same pointer carries the same message. -/
theorem dupFold_preserve (member : String) (K : String) (V : JVal) :
    ∀ (l : List JVal) (st : Obj × List TypeId),
      (∀ res ∈ l, dupPointer member (tidOf res) = K →
        detailOf (duplicateResourceMsg member (pyReprOpt (tidOf res).1)
          (pyReprOpt (tidOf res).2)) = V) →
      objGet st.1 K = some V →
      objGet ((l.foldl (validateDuplicatesStep member) st).1) K = some V
  | [], _, _, h => h
  | res :: rest, st, hcons, h => by
      rw [List.foldl_cons]
      apply dupFold_preserve member K V rest _
        (fun r hr => hcons r (List.mem_cons_of_mem _ hr))
      show objGet (validateDuplicatesStep member st res).1 K = some V
      unfold validateDuplicatesStep
      simp only
      split
      · by_cases hK : dupPointer member (tidOf res) = K
        · show objGet (insertReplace st.1 (dupPointer member (tidOf res))
            (detailOf (duplicateResourceMsg member (pyReprOpt (tidOf res).1)
              (pyReprOpt (tidOf res).2)))) K = some V
          rw [hK, hcons res (List.mem_cons_self res rest) hK]
          exact objGet_insertReplace_same _ _ _
        · show objGet (insertReplace st.1 (dupPointer member (tidOf res))
            (detailOf (duplicateResourceMsg member (pyReprOpt (tidOf res).1)
              (pyReprOpt (tidOf res).2)))) K = some V
          rw [objGet_insertReplace_other _ _ _ _ (fun he => hK he.symm)]
          exact h
      · exact h

/-- A later resource with an already-seen `(type, id)` pair records the
duplicate error, and it survives to the end of the member's resources. -/
theorem dupFold_trigger (member t i : String)
    (hsf : slashFree t ∧ slashFree i) (r2 : JVal) (l3 : List JVal)
    (st : Obj × List TypeId)
    (ht2 : tidOf r2 = (some (.str t), some (.str i)))
    (hseen : ((some (JVal.str t), some (JVal.str i)) : TypeId) ∈ st.2)
    (hl3 : ∀ res ∈ l3, strTid res) :
    objGet (((r2 :: l3).foldl (validateDuplicatesStep member) st).1)
        (dupPointer member (some (.str t), some (.str i)))
      = some (detailOf (duplicateResourceMsg member (pyRepr t) (pyRepr i))) := by
  rw [List.foldl_cons]
  apply dupFold_preserve member _ _ l3 _ ?hcons ?hrec
  case hcons =>
    intro res hres hptr
    obtain ⟨t', i', ht', hsf'⟩ := hl3 res hres
    rw [ht'] at hptr ⊢
    obtain ⟨rfl, rfl⟩ := dupPointer_inj member t i t' i' hsf hsf' hptr
    rfl
  case hrec =>
    show objGet (validateDuplicatesStep member st r2).1
        (dupPointer member (some (.str t), some (.str i)))
      = some (detailOf (duplicateResourceMsg member (pyRepr t) (pyRepr i)))
    unfold validateDuplicatesStep
    simp only
    have hc : st.2.contains ((jvGet r2 "type", jvGet r2 "id") : TypeId) = true := by
      have : ((jvGet r2 "type", jvGet r2 "id") : TypeId)
          = (some (JVal.str t), some (JVal.str i)) := ht2
      rw [this]
      exact List.elem_eq_true_of_mem hseen
    rw [if_pos hc]
    show objGet (insertReplace st.1 (dupPointer member (tidOf r2))
      (detailOf (duplicateResourceMsg member (pyReprOpt (tidOf r2).1)
        (pyReprOpt (tidOf r2).2)))) _ = _
    rw [ht2]
    exact objGet_insertReplace_same _ _ _

/-- **C2.**  Duplicate `(type, id)` detection.  Decode half: a document
whose `data` array holds two resources with the same string `(type, id)`
pair fails decode, and the accumulated report names the pair and the
`data` member under the JSON-Pointer-style key `/data/{type}/{id}`.
Encode half: the same `_validate_duplicates` check re-runs over the
rendered output shape — covering the `included` member — and fails in
the same way, keyed `/included/{type}/{id}`, when the output repeats a
primary resource inside `included`.  (`type`/`id` values are slash-free
wire strings; later resources in the stream carry string pairs too, so
pointer keys identify their pair uniquely.) -/
theorem c2_duplicate_resources :
    (∀ (reg : Registry) (doc : Obj) (la lb : List JVal) (r1 r2 : JVal)
        (t i : String),
      objGet doc "data" = some (.arr (la ++ r2 :: lb)) →
      r1 ∈ la →
      tidOf r1 = (some (.str t), some (.str i)) →
      tidOf r2 = (some (.str t), some (.str i)) →
      slashFree t ∧ slashFree i →
      (∀ res ∈ lb, strTid res) →
      docToInternalValue reg doc = .error (docStructuralErrors doc) ∧
        objGet (docStructuralErrors doc)
            (dupPointer "data" (some (.str t), some (.str i)))
          = some (detailOf (duplicateResourceMsg "data" (pyRepr t) (pyRepr i)))) ∧
    (∀ (rep : Obj) (ld li2 li3 : List JVal) (r1 r2 : JVal) (t i : String),
      objGet rep "data" = some (.arr ld) →
      objGet rep "included" = some (.arr (li2 ++ r2 :: li3)) →
      r1 ∈ ld →
      tidOf r1 = (some (.str t), some (.str i)) →
      tidOf r2 = (some (.str t), some (.str i)) →
      slashFree t ∧ slashFree i →
      (∀ res ∈ li3, strTid res) →
      ∃ e, docToRepresentationPost rep = .error e ∧
        objGet e (dupPointer "included" (some (.str t), some (.str i)))
          = some (detailOf
              (duplicateResourceMsg "included" (pyRepr t) (pyRepr i)))) := by
  constructor
  · intro reg doc la lb r1 r2 t i hdata hr1 ht1 ht2 hsf hlb
    have hprim : primaryAsList doc = la ++ r2 :: lb := by
      simp [primaryAsList, hdata]
    have hkey : objGet (docStructuralErrors doc)
        (dupPointer "data" (some (.str t), some (.str i)))
        = some (detailOf (duplicateResourceMsg "data" (pyRepr t) (pyRepr i))) := by
      simp only [docStructuralErrors]
      unfold _validate_duplicates
      simp only [List.foldl_cons, List.foldl_nil]
      rw [hprim, List.foldl_append]
      apply dupFold_trigger "data" t i hsf r2 lb _ ht2 ?_ hlb
      rw [dupFold_snd]
      simp only [List.nil_append]
      exact List.mem_map.mpr ⟨r1, hr1, ht1⟩
    exact ⟨docToInternalValue_error reg doc (objGet_ne_nil_of_some hkey), hkey⟩
  · intro rep ld li2 li3 r1 r2 t i hdata hinc hr1 ht1 ht2 hsf hli3
    have hincL : includedAsList rep = li2 ++ r2 :: li3 := by
      simp [includedAsList, hinc]
    have hprim : primaryAsList rep = ld := by
      simp [primaryAsList, hdata]
    have hkey : objGet
        (_validate_duplicates rep [] [("included", includedAsList rep)])
        (dupPointer "included" (some (.str t), some (.str i)))
        = some (detailOf
            (duplicateResourceMsg "included" (pyRepr t) (pyRepr i))) := by
      unfold _validate_duplicates
      simp only [List.foldl_cons, List.foldl_nil]
      rw [hprim, hincL, List.foldl_append]
      apply dupFold_trigger "included" t i hsf r2 li3 _ ht2 ?_ hli3
      rw [dupFold_snd]
      apply List.mem_append_left
      rw [dupFold_snd]
      simp only [List.nil_append]
      exact List.mem_map.mpr ⟨r1, hr1, ht1⟩
    refine ⟨_, ?_, hkey⟩
    unfold docToRepresentationPost
    simp only
    rw [if_pos (objGet_ne_nil_of_some hkey)]

/-- Witness for C2 at the repository test's shape
(`test_duplicate_resource_validation`): the same `articles` resource
twice — once duplicated inside `data` for the decode half, once
duplicated between `data` and `included` for the encode half. -/
theorem c2_duplicate_resources_witness :
    (docToInternalValue fixtureRegistry
        [("data", .arr [.obj [("type", .str "articles"), ("id", .str "u1")],
                        .obj [("type", .str "articles"), ("id", .str "u1")]])]
      = .error (docStructuralErrors
          [("data", .arr [.obj [("type", .str "articles"), ("id", .str "u1")],
                          .obj [("type", .str "articles"), ("id", .str "u1")]])]) ∧
      objGet (docStructuralErrors
          [("data", .arr [.obj [("type", .str "articles"), ("id", .str "u1")],
                          .obj [("type", .str "articles"), ("id", .str "u1")]])])
          (dupPointer "data" (some (.str "articles"), some (.str "u1")))
        = some (detailOf
            (duplicateResourceMsg "data" (pyRepr "articles") (pyRepr "u1")))) ∧
    (∃ e, docToRepresentationPost
        [("data", .arr [.obj [("type", .str "articles"), ("id", .str "u1")]]),
         ("included", .arr [.obj [("type", .str "articles"), ("id", .str "u1")]])]
      = .error e ∧
      objGet e (dupPointer "included" (some (.str "articles"), some (.str "u1")))
        = some (detailOf
            (duplicateResourceMsg "included" (pyRepr "articles") (pyRepr "u1")))) :=
  ⟨c2_duplicate_resources.1 fixtureRegistry
      [("data", .arr [.obj [("type", .str "articles"), ("id", .str "u1")],
                      .obj [("type", .str "articles"), ("id", .str "u1")]])]
      [.obj [("type", .str "articles"), ("id", .str "u1")]] []
      (.obj [("type", .str "articles"), ("id", .str "u1")])
      (.obj [("type", .str "articles"), ("id", .str "u1")])
      "articles" "u1" rfl (List.mem_singleton.mpr rfl) rfl rfl
      ⟨by decide, by decide⟩ (fun res h => absurd h (List.not_mem_nil res)),
   c2_duplicate_resources.2
      [("data", .arr [.obj [("type", .str "articles"), ("id", .str "u1")]]),
       ("included", .arr [.obj [("type", .str "articles"), ("id", .str "u1")]])]
      [.obj [("type", .str "articles"), ("id", .str "u1")]] [] []
      (.obj [("type", .str "articles"), ("id", .str "u1")])
      (.obj [("type", .str "articles"), ("id", .str "u1")])
      "articles" "u1" rfl rfl (List.mem_singleton.mpr rfl) rfl rfl
      ⟨by decide, by decide⟩ (fun res h => absurd h (List.not_mem_nil res))⟩

/-- **C9 counterexample.**  The claim says a decoded document carrying
`jsonapi.version` above the supported 1.0 fails with the
unsupported-version error; but the document's `jsonapi` field is
`read_only` (serializers.py lines 770-773), so document decode skips it
entirely: a document carrying `jsonapi.version = "99.0"` — which
`validate_version` itself rejects — decodes successfully. -/
theorem c9_version_negotiation_counterexample :
    docToInternalValue fixtureRegistry
        [("data", .obj [("type", .str "articles"), ("id", .str "u1"),
                        ("attributes", .obj [("title", .str "T")])]),
         ("jsonapi", .obj [("version", .str "99.0")])]
      = .ok (some (.single ⟨"articles",
          [("id", .str "u1"), ("title", .str "T")]⟩)) ∧
    validate_version "99.0"
      = .error ("The JSON API version requested is too high and not supported: "
          ++ renderVersion (parse_version "99.0") ++ ".") := by
  constructor
  · rfl
  · rfl

/-- **C9 (amended).**  Version negotiation lives in the implementation
serializer, not in document decode: (a) document decode never reads the
`jsonapi` member — deleting it from any document leaves the decode
result unchanged; (b) `validate_version` fails with the
unsupported-version error naming the requested version exactly when the
parsed version exceeds the supported 1.0; (c) on encode the document
always stamps the supported version, `{"version": "1.0"}`. -/
theorem c9_version_negotiation_amended :
    (∀ (reg : Registry) (doc : Obj),
      docToInternalValue reg (doc.filter (fun p => p.1 ≠ "jsonapi"))
        = docToInternalValue reg doc) ∧
    (∀ version : String,
      versionLt (parse_version "1.0") (parse_version version) = true →
      validate_version version
        = .error ("The JSON API version requested is too high and not supported: "
            ++ renderVersion (parse_version version) ++ ".")) ∧
    docJsonapiRepresentation = [("version", .str "1.0")] := by
  refine ⟨?_, ?_, rfl⟩
  · intro reg doc
    have h1 : ∀ k : String, k ≠ "jsonapi" →
        objGet (doc.filter (fun p => p.1 ≠ "jsonapi")) k = objGet doc k :=
      fun k hk => objGet_filter_ne doc "jsonapi" k hk
    have h2 : ∀ k : String, k ≠ "jsonapi" →
        objHas (doc.filter (fun p => p.1 ≠ "jsonapi")) k = objHas doc k := by
      intro k hk
      rw [objHas_eq_isSome, objHas_eq_isSome, h1 k hk]
    simp only [docToInternalValue, docStructuralErrors, _validate_duplicates,
      primaryAsList, docMustHaveOneOf, List.any_cons, List.any_nil]
    have he := h1 "errors" (by decide)
    have hd := h1 "data" (by decide)
    have hi := h1 "included" (by decide)
    have hhd := h2 "data" (by decide)
    have hhe := h2 "errors" (by decide)
    have hhm := h2 "meta" (by decide)
    simp only [he, hd, hi, hhd, hhe, hhm]
  · intro version hv
    unfold validate_version
    rw [if_pos hv]

/-- Witness for the amended C9 at a concrete document and version. -/
theorem c9_version_negotiation_amended_witness :
    docToInternalValue fixtureRegistry
        (([("data", .obj [("type", .str "articles")]),
           ("jsonapi", .obj [("version", .str "2.0")])] : Obj).filter
          (fun p => p.1 ≠ "jsonapi"))
      = docToInternalValue fixtureRegistry
          [("data", .obj [("type", .str "articles")]),
           ("jsonapi", .obj [("version", .str "2.0")])] ∧
    validate_version "2.0"
      = .error ("The JSON API version requested is too high and not supported: "
          ++ renderVersion (parse_version "2.0") ++ ".") :=
  ⟨c9_version_negotiation_amended.1 fixtureRegistry
      [("data", .obj [("type", .str "articles")]),
       ("jsonapi", .obj [("version", .str "2.0")])],
   c9_version_negotiation_amended.2.1 "2.0" (by decide)⟩

/-! ## Round-trip machinery (claim C1)

The flat records the round-trip law quantifies over are exactly those a
field-schema assignment generates: for each schema field, an optional
value, collected in schema order.  `byName` is the generic such
collection, keyed by the schema field names. -/

/-- Collect `(f.name, v)` for every schema field whose generator yields a
value, in schema order. -/
def byName (sch : Schema) (gen : SpecField → Option JVal) : Obj :=
  sch.filterMap (fun g => (gen g).map (fun v => (g.name, v)))

/-- The schema-matching flat record with the given value assignment. -/
def mkFields (sch : Schema) (vals : String → Option JVal) : Obj :=
  byName sch (fun f => vals f.name)

theorem byName_nil (gen : SpecField → Option JVal) : byName [] gen = [] := rfl

theorem byName_cons (gen : SpecField → Option JVal) (f : SpecField)
    (rest : Schema) :
    byName (f :: rest) gen
      = match gen f with
        | none => byName rest gen
        | some v => (f.name, v) :: byName rest gen := by
  cases h : gen f <;> simp [byName, List.filterMap_cons, h]

theorem foldl_build_eq_byName (h : String → Option JVal) :
    ∀ (sch : Schema) (acc : Obj),
      sch.foldl (fun acc f =>
        match h f.name with
        | some v => acc ++ [(f.name, v)]
        | none => acc) acc
      = acc ++ byName sch (fun f => h f.name)
  | [], acc => by simp [byName_nil]
  | f :: rest, acc => by
      rw [List.foldl_cons, byName_cons]
      cases hv : h f.name with
      | none =>
          rw [foldl_build_eq_byName h rest acc]
      | some v =>
          rw [foldl_build_eq_byName h rest (acc ++ [(f.name, v)])]
          simp

theorem objGet_byName_notmem (gen : SpecField → Option JVal) :
    ∀ (sch : Schema) (n : String), (∀ g ∈ sch, g.name ≠ n) →
      objGet (byName sch gen) n = none
  | [], _, _ => rfl
  | f :: rest, n, h => by
      rw [byName_cons]
      have hrest := objGet_byName_notmem gen rest n
        (fun g hg => h g (List.mem_cons_of_mem _ hg))
      cases hv : gen f with
      | none => exact hrest
      | some v =>
          rw [objGet_cons, if_neg (h f (List.mem_cons_self f rest))]
          exact hrest

/-- With distinct schema names, the lookup of a schema field's name in a
`byName` collection is exactly that field's generated value. -/
theorem objGet_byName (gen : SpecField → Option JVal) :
    ∀ (sch : Schema) (f : SpecField),
      (sch.map (fun g => g.name)).Nodup → f ∈ sch →
      objGet (byName sch gen) f.name = gen f
  | [], f, _, hf => absurd hf (List.not_mem_nil f)
  | g :: rest, f, hnd, hf => by
      have hnd2 : (rest.map (fun g => g.name)).Nodup :=
        (List.nodup_cons.mp hnd).2
      have hgn : g.name ∉ rest.map (fun g => g.name) :=
        (List.nodup_cons.mp hnd).1
      rw [byName_cons]
      rcases List.mem_cons.mp hf with rfl | hf2
      · cases hv : gen f with
        | none =>
            exact objGet_byName_notmem gen rest f.name
              (fun g2 hg2 he => hgn (he ▸ List.mem_map_of_mem _ hg2))
        | some v =>
            rw [objGet_cons, if_pos rfl]
      · have hne : g.name ≠ f.name := by
          intro he
          exact hgn (he ▸ List.mem_map_of_mem _ hf2)
        cases hv : gen g with
        | none => exact objGet_byName gen rest f hnd2 hf2
        | some v =>
            rw [objGet_cons, if_neg hne]
            exact objGet_byName gen rest f hnd2 hf2

/-- `byName` with an arbitrary key renderer — the encoder keys its
buckets by `parameterize f.name` (line 36), the de-inflection loop maps
them back to `f.name`. -/
def byKey (key : SpecField → String) (sch : Schema)
    (gen : SpecField → Option JVal) : Obj :=
  sch.filterMap (fun g => (gen g).map (fun v => (key g, v)))

theorem byKey_name (sch : Schema) (gen : SpecField → Option JVal) :
    byKey (fun g => g.name) sch gen = byName sch gen := rfl

theorem byKey_cons_none (key : SpecField → String)
    (gen : SpecField → Option JVal) (f : SpecField) (rest : Schema)
    (h : gen f = none) :
    byKey key (f :: rest) gen = byKey key rest gen := by
  simp [byKey, List.filterMap_cons, h]

theorem byKey_cons_some (key : SpecField → String)
    (gen : SpecField → Option JVal) (f : SpecField) (rest : Schema)
    (v : JVal) (h : gen f = some v) :
    byKey key (f :: rest) gen = (key f, v) :: byKey key rest gen := by
  simp [byKey, List.filterMap_cons, h]

/-- The encoder's `attributes` bucket generator (`to_representation`,
lines 586-607): a field contributes when it is attribute-shaped, not
named `id`, and carries a value. -/
def genAttr (flds : Obj) (f : SpecField) : Option JVal :=
  if f.name == "id" then none
  else match f.kind, objGet flds f.name with
    | .attr, some v => some v
    | _, _ => none

/-- The encoder's `relationships` bucket generator: the declared related
type together with the stored identifier. -/
def genRel (flds : Obj) (f : SpecField) : Option (String × JVal) :=
  if f.name == "id" then none
  else match f.kind, objGet flds f.name with
    | .rel rt, some v => some (rt, v)
    | _, _ => none

/-- The rendered relationship member value. -/
def genRelWire (flds : Obj) (f : SpecField) : Option JVal :=
  (genRel flds f).map (fun p => relationshipToRepresentation p.1 p.2)

/-- The decoded relationship value (just the identifier). -/
def genRelId (flds : Obj) (f : SpecField) : Option JVal :=
  (genRel flds f).map (fun p => p.2)

/-- The encoder's bucket fold builds exactly the two `byKey` collections,
keyed by the inflected field names. -/
theorem bucketsFold_eq (flds : Obj) :
    ∀ (sch : Schema) (a b : Obj),
      sch.foldl (fun (st : Obj × Obj) f =>
        if f.name == "id" then st
        else match f.kind, objGet flds f.name with
          | _, none => st
          | .attr, some v => (st.1 ++ [(parameterize f.name, v)], st.2)
          | .rel rt, some v =>
              (st.1, st.2 ++ [(parameterize f.name, relationshipToRepresentation rt v)]))
        (a, b)
      = (a ++ byKey (fun g => parameterize g.name) sch (genAttr flds),
         b ++ byKey (fun g => parameterize g.name) sch (genRelWire flds))
  | [], a, b => by simp [byKey]
  | f :: rest, a, b => by
      rw [List.foldl_cons]
      cases hid : (f.name == "id") with
      | true =>
          have h1 : genAttr flds f = none := by simp [genAttr, hid]
          have h2 : genRelWire flds f = none := by
            simp [genRelWire, genRel, hid]
          rw [if_pos rfl, byKey_cons_none _ _ _ _ h1,
            byKey_cons_none _ _ _ _ h2]
          exact bucketsFold_eq flds rest a b
      | false =>
          rw [if_neg Bool.false_ne_true]
          cases hk : f.kind with
          | attr =>
              cases hv : objGet flds f.name with
              | none =>
                  have h1 : genAttr flds f = none := by
                    simp [genAttr, hid, hk, hv]
                  have h2 : genRelWire flds f = none := by
                    simp [genRelWire, genRel, hid, hk, hv]
                  rw [byKey_cons_none _ _ _ _ h1, byKey_cons_none _ _ _ _ h2]
                  exact bucketsFold_eq flds rest a b
              | some v =>
                  have h1 : genAttr flds f = some v := by
                    simp [genAttr, hid, hk, hv]
                  have h2 : genRelWire flds f = none := by
                    simp [genRelWire, genRel, hid, hk, hv]
                  rw [byKey_cons_some _ _ _ _ _ h1, byKey_cons_none _ _ _ _ h2]
                  exact (bucketsFold_eq flds rest _ _).trans (by simp)
          | rel rt =>
              cases hv : objGet flds f.name with
              | none =>
                  have h1 : genAttr flds f = none := by
                    simp [genAttr, hid, hk, hv]
                  have h2 : genRelWire flds f = none := by
                    simp [genRelWire, genRel, hid, hk, hv]
                  rw [byKey_cons_none _ _ _ _ h1, byKey_cons_none _ _ _ _ h2]
                  exact bucketsFold_eq flds rest a b
              | some v =>
                  have h1 : genAttr flds f = none := by
                    simp [genAttr, hid, hk, hv]
                  have h2 : genRelWire flds f
                      = some (relationshipToRepresentation rt v) := by
                    simp [genRelWire, genRel, hid, hk, hv]
                  rw [byKey_cons_none _ _ _ _ h1, byKey_cons_some _ _ _ _ _ h2]
                  exact (bucketsFold_eq flds rest _ _).trans (by simp)

/-- The wire shape the encoder emits (`to_representation`, lines
577-628): optional `id`, then `type`, then whichever buckets are
non-empty. -/
def canonWire (idv : Option JVal) (t : String) (a r : Obj) : Obj :=
  (match idv with | some v => [("id", v)] | none => []) ++ [("type", .str t)] ++
  (if a ≠ [] then [("attributes", .obj a)] else []) ++
  (if r ≠ [] then [("relationships", .obj r)] else [])

theorem resourceToRepresentation_eq (reg : Registry) (r : FlatRecord)
    (sch : Schema) (hfind : lookupSchema reg r.type = some sch) :
    resourceToRepresentation reg r
      = canonWire (objGet r.fields "id") r.type
          (byKey (fun g => parameterize g.name) sch (genAttr r.fields))
          (byKey (fun g => parameterize g.name) sch (genRelWire r.fields)) := by
  simp only [resourceToRepresentation, hfind]
  rw [bucketsFold_eq r.fields sch [] []]
  simp only [List.nil_append, canonWire]

theorem objGet_canonWire_type (idv : Option JVal) (t : String) (a r : Obj) :
    objGet (canonWire idv t a r) "type" = some (.str t) := by
  unfold canonWire
  cases idv <;> by_cases ha : a = [] <;> by_cases hr : r = [] <;>
    simp [ha, hr, objGet_append, objGet_cons, objGet]

theorem objGet_canonWire_id (idv : Option JVal) (t : String) (a r : Obj) :
    objGet (canonWire idv t a r) "id" = idv := by
  unfold canonWire
  cases idv <;> by_cases ha : a = [] <;> by_cases hr : r = [] <;>
    simp [ha, hr, objGet_append, objGet_cons, objGet]

theorem objGet_canonWire_attrs (idv : Option JVal) (t : String) (a r : Obj) :
    objGet (canonWire idv t a r) "attributes"
      = if a = [] then none else some (.obj a) := by
  unfold canonWire
  cases idv <;> by_cases ha : a = [] <;> by_cases hr : r = [] <;>
    simp [ha, hr, objGet_append, objGet_cons, objGet]

theorem objGet_canonWire_rels (idv : Option JVal) (t : String) (a r : Obj) :
    objGet (canonWire idv t a r) "relationships"
      = if r = [] then none else some (.obj r) := by
  unfold canonWire
  cases idv <;> by_cases ha : a = [] <;> by_cases hr : r = [] <;>
    simp [ha, hr, objGet_append, objGet_cons, objGet]

theorem canonWire_mapAttrs (idv : Option JVal) (t : String) (a r a' : Obj)
    (ha : a ≠ []) (ha' : a' ≠ []) :
    (canonWire idv t a r).map
      (fun p => if p.1 = "attributes" then ("attributes", .obj a') else p)
      = canonWire idv t a' r := by
  unfold canonWire
  cases idv <;> by_cases hr : r = [] <;>
    simp [ha, ha', hr, List.map_append]

theorem canonWire_mapRels (idv : Option JVal) (t : String) (a r r' : Obj)
    (hr : r ≠ []) (hr' : r' ≠ []) :
    (canonWire idv t a r).map
      (fun p => if p.1 = "relationships" then ("relationships", .obj r') else p)
      = canonWire idv t a r' := by
  unfold canonWire
  cases idv <;> by_cases ha : a = [] <;>
    simp [ha, hr, hr', List.map_append]

theorem deinflectKeys_nil : deinflectKeys [] = [] := rfl

theorem deinflectKeys_ne_nil {a : Obj} (ha : a ≠ []) : deinflectKeys a ≠ [] := by
  simp [deinflectKeys, ha]

/-- De-inflecting the parameterize-keyed collection restores the schema
names: `underscore (parameterize n) = n` on lower/underscore names. -/
theorem deinflectKeys_byKey (sch : Schema) (gen : SpecField → Option JVal)
    (hlower : ∀ f ∈ sch, ∀ c ∈ f.name.data, c.isLower ∨ c = '_') :
    deinflectKeys (byKey (fun g => parameterize g.name) sch gen)
      = byName sch gen := by
  unfold deinflectKeys byKey byName
  rw [List.map_filterMap]
  refine List.filterMap_congr ?_
  intro g hg
  cases hgen : gen g with
  | none => rfl
  | some v =>
      show some (underscore (parameterize g.name), v) = some (g.name, v)
      rw [parameterize_id g.name (hlower g hg),
        underscore_id g.name (hlower g hg)]

theorem genRel_some {flds : Obj} {f : SpecField} {rt : String} {v : JVal}
    (h : genRel flds f = some (rt, v)) :
    f.kind = .rel rt ∧ objGet flds f.name = some v ∧ (f.name == "id") = false := by
  unfold genRel at h
  by_cases hid : (f.name == "id") = true
  · rw [if_pos hid] at h
    exact absurd h (by simp)
  · rw [if_neg hid] at h
    cases hk : f.kind with
    | attr =>
        rw [hk] at h
        cases hv : objGet flds f.name <;> rw [hv] at h <;> simp at h
    | rel rt' =>
        rw [hk] at h
        cases hv : objGet flds f.name with
        | none => rw [hv] at h; simp at h
        | some v' =>
            rw [hv] at h
            simp only [Option.some.injEq, Prod.mk.injEq] at h
            exact ⟨by rw [h.1], by rw [h.2], Bool.not_eq_true _ ▸ hid⟩

/-- Decoding a rendered relationship member: the identifier comes
straight back (the declared related type is registered). -/
theorem relationshipToRepresentation_decode (reg : Registry) (rt : String)
    (v : JVal) (hreg : (lookupSchema reg rt).isSome = true) :
    relationshipToInternalValue reg (relationshipToRepresentation rt v)
      = .ok v := by
  simp [relationshipToInternalValue, relationshipToRepresentation, objHas,
    objGet, identifierToInternalValue, identifierToInternalValueSingle,
    objGet_cons, hreg]

/-- The relationships `DictField` child loop over a rendered bucket:
every child decodes to its identifier. -/
theorem relsChildrenRun_byKey (reg : Registry) (flds : Obj)
    (key : SpecField → String) :
    ∀ (sch : Schema),
      (∀ f ∈ sch, ∀ rt, f.kind = .rel rt → (lookupSchema reg rt).isSome = true) →
      relsChildrenRun reg (byKey key sch (genRelWire flds))
        = .valid (byKey key sch (genRelWire flds))
                 (byKey key sch (genRelId flds))
  | [], _ => rfl
  | f :: rest, h => by
      have hrest := relsChildrenRun_byKey reg flds key rest
        (fun g hg => h g (List.mem_cons_of_mem _ hg))
      cases hg : genRel flds f with
      | none =>
          rw [byKey_cons_none _ _ _ _ (by simp [genRelWire, hg]),
            byKey_cons_none _ _ _ _ (by simp [genRelId, hg])]
          exact hrest
      | some p =>
          obtain ⟨rt, v⟩ := p
          have hkind := (genRel_some hg).1
          have hreg := h f (List.mem_cons_self f rest) rt hkind
          rw [byKey_cons_some _ _ _ _ _
              (by simp [genRelWire, hg] :
                genRelWire flds f = some (relationshipToRepresentation rt v)),
            byKey_cons_some _ _ _ _ _
              (by simp [genRelId, hg] : genRelId flds f = some v)]
          simp only [relsChildrenRun,
            relationshipToRepresentation_decode reg rt v hreg, hrest]

/-- The in-place de-inflection pass on an encoder-shaped wire object
rewrites exactly the two member objects' keys. -/
theorem deinflectMembers_canonWire (reg : Registry) (idv : Option JVal)
    (t : String) (a r ds : Obj)
    (hds : relsChildrenRun reg r = .valid r ds) :
    deinflectMembers reg (canonWire idv t a r)
      = canonWire idv t (deinflectKeys a) (deinflectKeys r) := by
  simp only [deinflectMembers, objGet_canonWire_attrs, objGet_canonWire_rels]
  by_cases ha : a = [] <;> by_cases hr : r = []
  · subst ha; subst hr
    simp [attributesRun, relationshipsRunMember, deinflectKeys_nil]
  · subst ha
    rw [if_pos rfl, if_neg hr, deinflectKeys_nil]
    simp only [attributesRun, relationshipsRunMember, hds]
    exact canonWire_mapRels idv t [] r (deinflectKeys r) hr
      (deinflectKeys_ne_nil hr)
  · subst hr
    rw [if_neg ha, if_pos rfl, deinflectKeys_nil]
    simp only [attributesRun, relationshipsRunMember]
    exact canonWire_mapAttrs idv t a [] (deinflectKeys a) ha
      (deinflectKeys_ne_nil ha)
  · rw [if_neg ha, if_neg hr]
    simp only [attributesRun, relationshipsRunMember, hds]
    rw [canonWire_mapAttrs idv t a r (deinflectKeys a) ha
      (deinflectKeys_ne_nil ha)]
    exact canonWire_mapRels idv t (deinflectKeys a) r (deinflectKeys r) hr
      (deinflectKeys_ne_nil hr)

theorem genAttr_some {flds : Obj} {f : SpecField} {v : JVal}
    (h : genAttr flds f = some v) :
    (f.name == "id") = false ∧ f.kind = .attr ∧ objGet flds f.name = some v := by
  unfold genAttr at h
  by_cases hid : (f.name == "id") = true
  · rw [if_pos hid] at h
    exact absurd h (by simp)
  · rw [if_neg hid] at h
    cases hk : f.kind with
    | attr =>
        cases hv : objGet flds f.name with
        | none => rw [hk, hv] at h; exact absurd h (by simp)
        | some v' =>
            rw [hk, hv] at h
            simp only [Option.some.injEq] at h
            exact ⟨Bool.not_eq_true _ ▸ hid, rfl, by rw [h]⟩
    | rel rt =>
        rw [hk] at h
        cases hv : objGet flds f.name <;> rw [hv] at h <;>
          exact absurd h (by simp)

theorem genAttr_eval_id {flds : Obj} {f : SpecField}
    (hid : (f.name == "id") = true) : genAttr flds f = none := by
  unfold genAttr
  rw [if_pos hid]

theorem genAttr_eval_attr {flds : Obj} {f : SpecField}
    (hid : (f.name == "id") = false) (hk : f.kind = .attr) :
    genAttr flds f = objGet flds f.name := by
  unfold genAttr
  rw [if_neg (by simp [hid]), hk]
  cases hv : objGet flds f.name <;> simp

theorem genAttr_eval_rel {flds : Obj} {f : SpecField} {rt : String}
    (hk : f.kind = .rel rt) : genAttr flds f = none := by
  unfold genAttr
  by_cases hid : (f.name == "id") = true
  · rw [if_pos hid]
  · rw [if_neg hid, hk]

theorem genRel_eval_id {flds : Obj} {f : SpecField}
    (hid : (f.name == "id") = true) : genRel flds f = none := by
  unfold genRel
  rw [if_pos hid]

theorem genRel_eval_attr {flds : Obj} {f : SpecField}
    (hk : f.kind = .attr) : genRel flds f = none := by
  unfold genRel
  by_cases hid : (f.name == "id") = true
  · rw [if_pos hid]
  · rw [if_neg hid, hk]

theorem genRel_eval_rel {flds : Obj} {f : SpecField} {rt : String}
    (hid : (f.name == "id") = false) (hk : f.kind = .rel rt) :
    genRel flds f = (objGet flds f.name).map (fun v => (rt, v)) := by
  unfold genRel
  rw [if_neg (by simp [hid]), hk]
  cases hv : objGet flds f.name <;> simp

theorem mem_of_objGet_some {m : Obj} {k : String} {v : JVal}
    (h : objGet m k = some v) : (k, v) ∈ m := by
  unfold objGet at h
  cases hf : m.find? (fun p => p.1 == k) with
  | none => rw [hf] at h; exact absurd h (by simp)
  | some p =>
      obtain ⟨p1, p2⟩ := p
      rw [hf, Option.map_some'] at h
      simp only [Option.some.injEq] at h
      have hk' : p1 = k := by simpa using List.find?_some hf
      subst h; subst hk'
      exact List.mem_of_find?_eq_some hf

theorem objHas_false_of (m : Obj) (k : String)
    (h : ∀ p ∈ m, p.1 ≠ k) : objHas m k = false := by
  unfold objHas
  rw [List.any_eq_false]
  intro p hp
  simp [h p hp]

theorem exists_of_objHas (m : Obj) (k : String) (h : objHas m k = true) :
    ∃ p ∈ m, p.1 = k := by
  unfold objHas at h
  rcases List.any_eq_true.mp h with ⟨p, hp, he⟩
  exact ⟨p, hp, by simpa using he⟩

/-- A member p of `byName` comes from a schema field with a generated
value. -/
theorem mem_byName {sch : Schema} {gen : SpecField → Option JVal}
    {p : String × JVal} (h : p ∈ byName sch gen) :
    ∃ g ∈ sch, g.name = p.1 ∧ gen g = some p.2 := by
  unfold byName at h
  rcases List.mem_filterMap.mp h with ⟨g, hg, he⟩
  cases hgen : gen g with
  | none => rw [hgen] at he; exact absurd he (by simp)
  | some v =>
      rw [hgen, Option.map_some'] at he
      simp only [Option.some.injEq] at he
      exact ⟨g, hg, by rw [← he], by rw [hgen, ← he]⟩

/-- `dict.update` with key-disjoint operands is append. -/
theorem objUpdate_disjoint (base upd : Obj)
    (h : ∀ q ∈ upd, objHas base q.1 = false) :
    objUpdate base upd = base ++ upd := by
  unfold objUpdate
  have hmap : base.map (fun p =>
      match objGet upd p.1 with
      | some v => (p.1, v)
      | none => p) = base := by
    rw [map_id_of]
    intro p hp
    cases hget : objGet upd p.1 with
    | none => rfl
    | some v =>
        have hmem := mem_of_objGet_some hget
        have := h (p.1, v) hmem
        rw [objHas] at this
        have hp' : base.any (fun q => q.1 == (p.1, v).1) = true :=
          List.any_eq_true.mpr ⟨p, hp, by simp⟩
        rw [this] at hp'
        exact absurd hp' (by simp)
  have hfilt : upd.filter (fun q => !objHas base q.1) = upd := by
    rw [List.filter_eq_self]
    intro q hq
    rw [h q hq]
    rfl
  rw [hmap, hfilt]

theorem objHas_append (a b : Obj) (k : String) :
    objHas (a ++ b) k = (objHas a k || objHas b k) := by
  simp [objHas, List.any_append]

theorem objGet_idPart (idv : Option JVal) (n : String) :
    objGet (match idv with | some v => [("id", v)] | none => []) n
      = if n = "id" then idv else none := by
  cases idv with
  | none => by_cases hn : n = "id" <;> simp [hn, objGet]
  | some v =>
      by_cases hn : n = "id"
      · rw [if_pos hn, objGet_cons, if_pos hn.symm]
      · rw [if_neg hn, objGet_cons, if_neg (fun he => hn he.symm)]
        rfl

theorem objHas_idPart (idv : Option JVal) (n : String) (hn : n ≠ "id") :
    objHas (match idv with | some v => [("id", v)] | none => []) n = false := by
  cases idv with
  | none => rfl
  | some v =>
      apply objHas_false_of
      intro p hp
      rcases List.mem_singleton.mp hp with rfl
      exact fun he => hn he.symm

theorem objHas_byName {sch : Schema} {gen : SpecField → Option JVal}
    {n : String} (h : objHas (byName sch gen) n = true) :
    ∃ g ∈ sch, g.name = n ∧ (gen g).isSome = true := by
  rcases exists_of_objHas _ _ h with ⟨p, hp, hpn⟩
  rcases mem_byName hp with ⟨g, hg, hname, hgen⟩
  exact ⟨g, hg, hname.trans hpn, by rw [hgen]; rfl⟩

theorem genRelId_eval_id {flds : Obj} {f : SpecField}
    (hid : (f.name == "id") = true) : genRelId flds f = none := by
  unfold genRelId
  rw [genRel_eval_id hid]
  rfl

theorem genRelId_eval_attr {flds : Obj} {f : SpecField}
    (hk : f.kind = .attr) : genRelId flds f = none := by
  unfold genRelId
  rw [genRel_eval_attr hk]
  rfl

theorem genRelId_eval_rel {flds : Obj} {f : SpecField} {rt : String}
    (hid : (f.name == "id") = false) (hk : f.kind = .rel rt) :
    genRelId flds f = objGet flds f.name := by
  unfold genRelId
  rw [genRel_eval_rel hid hk]
  cases objGet flds f.name <;> rfl

theorem genRelId_some {flds : Obj} {f : SpecField} {v : JVal}
    (h : genRelId flds f = some v) :
    (f.name == "id") = false ∧ ∃ rt, f.kind = .rel rt := by
  unfold genRelId at h
  cases hg : genRel flds f with
  | none => rw [hg] at h; exact absurd h (by simp)
  | some p =>
      obtain ⟨rt, v'⟩ := p
      rcases genRel_some hg with ⟨hk, _, hid⟩
      exact ⟨hid, rt, hk⟩

theorem byName_nil_iff (sch : Schema) (gen : SpecField → Option JVal) :
    byName sch gen = [] ↔ ∀ g ∈ sch, gen g = none := by
  unfold byName
  rw [List.filterMap_eq_nil_iff]
  constructor
  · exact fun h g hg => Option.map_eq_none'.mp (h g hg)
  · intro h g hg
    rw [h g hg]
    rfl

/-- Looking a schema field's name up in the merged flat mapping
(`id` binding, then de-inflected attributes, then decoded relationships)
returns the record's stored value. -/
theorem merged_lookup (sch : Schema) (vals : String → Option JVal)
    (hnd : (sch.map (fun g => g.name)).Nodup)
    (hidattr : ∀ f ∈ sch, f.name = "id" → f.kind = FieldKind.attr)
    (f : SpecField) (hf : f ∈ sch) :
    objGet
      (objUpdate (objUpdate
        (match objGet (mkFields sch vals) "id" with
          | some v => [("id", v)] | none => [])
        (byName sch (genAttr (mkFields sch vals))))
        (byName sch (genRelId (mkFields sch vals))))
      f.name
    = vals f.name := by
  have hvals : ∀ g ∈ sch, objGet (mkFields sch vals) g.name = vals g.name :=
    fun g hg => objGet_byName _ sch g hnd hg
  have hinj : ∀ g1 ∈ sch, ∀ g2 ∈ sch, g1.name = g2.name → g1 = g2 :=
    fun g1 h1 g2 h2 he => List.inj_on_of_nodup_map hnd h1 h2 he
  have hd1 : ∀ q ∈ byName sch (genAttr (mkFields sch vals)),
      objHas (match objGet (mkFields sch vals) "id" with
        | some v => [("id", v)] | none => []) q.1 = false := by
    intro q hq
    rcases mem_byName hq with ⟨g, hg, hname, hgen⟩
    have hid : (g.name == "id") = false := (genAttr_some hgen).1
    refine objHas_idPart _ _ ?_
    rw [← hname]
    simpa using hid
  have hd2 : ∀ q ∈ byName sch (genRelId (mkFields sch vals)),
      objHas ((match objGet (mkFields sch vals) "id" with
          | some v => [("id", v)] | none => [])
        ++ byName sch (genAttr (mkFields sch vals))) q.1 = false := by
    intro q hq
    rcases mem_byName hq with ⟨g2, hg2, hname2, hgen2⟩
    rcases genRelId_some hgen2 with ⟨hid2, rt, hk2⟩
    rw [objHas_append]
    have h1 : objHas (match objGet (mkFields sch vals) "id" with
        | some v => [("id", v)] | none => []) q.1 = false := by
      refine objHas_idPart _ _ ?_
      rw [← hname2]
      simpa using hid2
    have h2 : objHas (byName sch (genAttr (mkFields sch vals))) q.1 = false := by
      cases hh : objHas (byName sch (genAttr (mkFields sch vals))) q.1 with
      | false => rfl
      | true =>
          rcases objHas_byName hh with ⟨g1, hg1, hname1, hsome1⟩
          cases hgen1 : genAttr (mkFields sch vals) g1 with
          | none => rw [hgen1] at hsome1; exact absurd hsome1 (by simp)
          | some v1 =>
              have hk1 := (genAttr_some hgen1).2.1
              have heq : g1 = g2 := hinj g1 hg1 g2 hg2 (hname1.trans hname2.symm)
              rw [heq, hk2] at hk1
              exact absurd hk1 (by simp)
    rw [h1, h2]
    rfl
  rw [objUpdate_disjoint _ _ hd1, objUpdate_disjoint _ _ hd2,
    objGet_append, objGet_append, objGet_idPart,
    objGet_byName _ sch f hnd hf, objGet_byName _ sch f hnd hf]
  by_cases hfid : f.name = "id"
  · have hk := hidattr f hf hfid
    have hid : (f.name == "id") = true := by simp [hfid]
    rw [if_pos hfid, genAttr_eval_id hid, genRelId_eval_id hid, ← hfid,
      hvals f hf]
    cases vals f.name <;> rfl
  · have hid : (f.name == "id") = false := by simp [hfid]
    rw [if_neg hfid]
    cases hk : f.kind with
    | attr =>
        rw [genAttr_eval_attr hid hk, genRelId_eval_attr hk, hvals f hf]
        cases vals f.name <;> rfl
    | rel rt =>
        rw [genAttr_eval_rel hk, genRelId_eval_rel hid hk, hvals f hf]
        cases vals f.name <;> rfl

theorem keys_byName_mem {sch : Schema} {gen : SpecField → Option JVal}
    {k : String}
    (h : ((byName sch gen).map (fun p => p.1)).contains k = true) :
    ∃ g ∈ sch, g.name = k ∧ (gen g).isSome = true := by
  rcases List.mem_map.mp (List.elem_iff.mp h) with ⟨p, hp, he⟩
  rcases mem_byName hp with ⟨g, hg, hname, hgen⟩
  exact ⟨g, hg, hname.trans he, by rw [hgen]; rfl⟩

/-- The post-`super()` reserved-name and conflict checks pass on the two
schema-keyed member views: no field is named `type`, the buckets skip
`id`, and no name is in both buckets. -/
theorem resourcePostValidation_byName (sch : Schema)
    (genA genR : SpecField → Option JVal)
    (hnd : (sch.map (fun g => g.name)).Nodup)
    (hnotype : ∀ f ∈ sch, f.name ≠ "type")
    (hAid : ∀ g ∈ sch, (genA g).isSome = true → g.name ≠ "id")
    (hRid : ∀ g ∈ sch, (genR g).isSome = true → g.name ≠ "id")
    (hdisj : ∀ g ∈ sch, ¬((genA g).isSome = true ∧ (genR g).isSome = true)) :
    resourcePostValidation
      (if byName sch genA = [] then none else some (.obj (byName sch genA)))
      (if byName sch genR = [] then none else some (.obj (byName sch genR)))
      = [] := by
  have hinj : ∀ g1 ∈ sch, ∀ g2 ∈ sch, g1.name = g2.name → g1 = g2 :=
    fun g1 h1 g2 h2 he => List.inj_on_of_nodup_map hnd h1 h2 he
  have hcAt : (jvKeys (.obj (byName sch genA))).contains "type" = false := by
    cases hc : (jvKeys (.obj (byName sch genA))).contains "type" with
    | false => rfl
    | true =>
        rcases keys_byName_mem hc with ⟨g, hg, hname, _⟩
        exact absurd hname (hnotype g hg)
  have hcAi : (jvKeys (.obj (byName sch genA))).contains "id" = false := by
    cases hc : (jvKeys (.obj (byName sch genA))).contains "id" with
    | false => rfl
    | true =>
        rcases keys_byName_mem hc with ⟨g, hg, hname, hsome⟩
        exact absurd hname (hAid g hg hsome)
  have hcRt : (jvKeys (.obj (byName sch genR))).contains "type" = false := by
    cases hc : (jvKeys (.obj (byName sch genR))).contains "type" with
    | false => rfl
    | true =>
        rcases keys_byName_mem hc with ⟨g, hg, hname, _⟩
        exact absurd hname (hnotype g hg)
  have hcRi : (jvKeys (.obj (byName sch genR))).contains "id" = false := by
    cases hc : (jvKeys (.obj (byName sch genR))).contains "id" with
    | false => rfl
    | true =>
        rcases keys_byName_mem hc with ⟨g, hg, hname, hsome⟩
        exact absurd hname (hRid g hg hsome)
  have hconf : (jvKeys (.obj (byName sch genA))).filter
      (fun k => (jvKeys (.obj (byName sch genR))).contains k) = [] := by
    rw [List.filter_eq_nil_iff]
    intro k hk hc
    rcases List.mem_map.mp hk with ⟨p, hp, he⟩
    rcases mem_byName hp with ⟨g1, hg1, hn1, hgen1⟩
    rcases keys_byName_mem hc with ⟨g2, hg2, hn2, hsome2⟩
    have heq : g1 = g2 := hinj g1 hg1 g2 hg2 ((hn1.trans he).trans hn2.symm)
    exact hdisj g1 hg1 ⟨by rw [hgen1]; rfl, by rw [heq]; exact hsome2⟩
  have hresA : List.filter
      (fun rk => (jvKeys (.obj (byName sch genA))).contains rk)
      ["type", "id"] = [] := by
    rw [List.filter_eq_nil_iff]
    intro a ha hpa
    rcases List.mem_cons.mp ha with rfl | ha2
    · rw [hcAt] at hpa
      exact absurd hpa (by simp)
    rcases List.mem_cons.mp ha2 with rfl | ha3
    · rw [hcAi] at hpa
      exact absurd hpa (by simp)
    · exact absurd ha3 (List.not_mem_nil a)
  have hresR : List.filter
      (fun rk => (jvKeys (.obj (byName sch genR))).contains rk)
      ["type", "id"] = [] := by
    rw [List.filter_eq_nil_iff]
    intro a ha hpa
    rcases List.mem_cons.mp ha with rfl | ha2
    · rw [hcRt] at hpa
      exact absurd hpa (by simp)
    rcases List.mem_cons.mp ha2 with rfl | ha3
    · rw [hcRi] at hpa
      exact absurd hpa (by simp)
    · exact absurd ha3 (List.not_mem_nil a)
  by_cases hA : byName sch genA = [] <;> by_cases hR : byName sch genR = []
  · rw [if_pos hA, if_pos hR]
    rfl
  · rw [if_pos hA, if_neg hR]
    simp only [resourcePostValidation]
    rw [hresR]
    rw [if_neg (fun h : ([] : List String) ≠ [] => h rfl)]
  · rw [if_neg hA, if_pos hR]
    simp only [resourcePostValidation]
    rw [hresA]
    rw [if_neg (fun h : ([] : List String) ≠ [] => h rfl)]
  · rw [if_neg hA, if_neg hR]
    simp only [resourcePostValidation]
    rw [hresA]
    rw [if_neg (fun h : ([] : List String) ≠ [] => h rfl)]
    rw [hresR]
    rw [if_neg (fun h : ([] : List String) ≠ [] => h rfl)]
    rw [hconf]
    rw [if_neg (fun h : ([] : List String) ≠ [] => h rfl)]

/-- The specific serializer's required-field pass reports nothing when
every required field has a value. -/
theorem p2_nil (merged : Obj) :
    ∀ (sch : Schema) (acc : Obj),
      (∀ f ∈ sch, (f.required && (objGet merged f.name).isNone) = false) →
      sch.foldl (fun errs f =>
        if f.required && (objGet merged f.name).isNone then
          errs ++ [(f.name, detailOf requiredMsg)]
        else errs) acc = acc
  | [], _, _ => rfl
  | f :: rest, acc, h => by
      rw [List.foldl_cons,
        if_neg (by rw [h f (List.mem_cons_self f rest)]; exact Bool.false_ne_true)]
      exact p2_nil merged rest acc (fun g hg => h g (List.mem_cons_of_mem _ hg))

theorem foldl_build_eq_byName_objGet (M : Obj) (sch : Schema) :
    sch.foldl (fun acc f =>
      match objGet M f.name with
      | some v => acc ++ [(f.name, v)]
      | none => acc) []
    = byName sch (fun f => objGet M f.name) :=
  (foldl_build_eq_byName (fun n => objGet M n) sch []).trans
    (by rw [List.nil_append])

theorem byName_congr (sch : Schema) (g1 g2 : SpecField → Option JVal)
    (h : ∀ f ∈ sch, g1 f = g2 f) : byName sch g1 = byName sch g2 := by
  unfold byName
  refine List.filterMap_congr ?_
  intro f hf
  rw [h f hf]

/-- Tail of `super().to_internal_value` once the member runs have
passed: the required-field pass reports nothing and the specific
serializer rebuilds exactly the record's fields. -/
theorem superTail_ok (reg : Registry) (t : String) (sch : Schema)
    (vals : String → Option JVal) (M : Obj)
    (hm : ∀ f ∈ sch, objGet M f.name = vals f.name)
    (hreq : ∀ f ∈ sch, f.required = true → (vals f.name).isSome = true) :
    (if (sch.foldl (fun errs f =>
        if f.required && (objGet M f.name).isNone then
          errs ++ [(f.name, detailOf requiredMsg)]
        else errs) [] : Obj) ≠ [] then
      Except.error (repartitionErrors reg (sch.foldl (fun errs f =>
        if f.required && (objGet M f.name).isNone then
          errs ++ [(f.name, detailOf requiredMsg)]
        else errs) []))
    else Except.ok ⟨t, sch.foldl (fun acc f =>
        match objGet M f.name with
        | some v => acc ++ [(f.name, v)]
        | none => acc) []⟩)
    = Except.ok (⟨t, mkFields sch vals⟩ : FlatRecord) := by
  have hcond : ∀ f ∈ sch, (f.required && (objGet M f.name).isNone) = false := by
    intro f hf
    cases hr : f.required with
    | false => rfl
    | true =>
        rw [hm f hf]
        cases hv : vals f.name with
        | some v => rfl
        | none =>
            have hs := hreq f hf hr
            rw [hv] at hs
            exact absurd hs (by simp)
  rw [p2_nil M sch [] hcond]
  rw [if_neg (fun h : ([] : Obj) ≠ [] => h rfl)]
  rw [foldl_build_eq_byName_objGet M sch,
    byName_congr sch _ (fun f => vals f.name) hm]
  rfl

/-- `super().to_internal_value` on the canonical (already de-inflected)
wire object of a schema-matching record decodes back to that record. -/
theorem resourceSuper_canonical (reg : Registry) (t : String) (sch : Schema)
    (vals : String → Option JVal)
    (hfind : lookupSchema reg t = some sch)
    (hnd : (sch.map (fun g => g.name)).Nodup)
    (hidattr : ∀ f ∈ sch, f.name = "id" → f.kind = FieldKind.attr)
    (hrel : ∀ f ∈ sch, ∀ rt, f.kind = FieldKind.rel rt →
      (lookupSchema reg rt).isSome = true)
    (hreq : ∀ f ∈ sch, f.required = true → (vals f.name).isSome = true) :
    resourceSuperToInternalValue reg
        (canonWire (objGet (mkFields sch vals) "id") t
          (byName sch (genAttr (mkFields sch vals)))
          (byName sch (genRelWire (mkFields sch vals))))
      = .ok ⟨t, mkFields sch vals⟩ := by
  have hmerge := merged_lookup sch vals hnd hidattr
  have hRrun : relsChildrenRun reg (byName sch (genRelWire (mkFields sch vals)))
      = .valid (byName sch (genRelWire (mkFields sch vals)))
               (byName sch (genRelId (mkFields sch vals))) :=
    relsChildrenRun_byKey reg (mkFields sch vals) (fun g => g.name) sch hrel
  have hRmem : relationshipsRunMember reg
      (some (.obj (byName sch (genRelWire (mkFields sch vals)))))
      = .valid (byName sch (genRelWire (mkFields sch vals)))
               (byName sch (genRelId (mkFields sch vals))) := by
    simp only [relationshipsRunMember, hRrun]
  simp only [resourceSuperToInternalValue, objGet_canonWire_type,
    objGet_canonWire_attrs, objGet_canonWire_rels, objGet_canonWire_id,
    hfind]
  by_cases hA : byName sch (genAttr (mkFields sch vals)) = [] <;>
    by_cases hR : byName sch (genRelWire (mkFields sch vals)) = []
  · have hRid_nil : byName sch (genRelId (mkFields sch vals)) = [] := by
      rw [byName_nil_iff] at hR ⊢
      intro g hg
      have hw := hR g hg
      unfold genRelWire at hw
      unfold genRelId
      rw [Option.map_eq_none'.mp hw]
      rfl
    rw [hA] at hmerge
    rw [hRid_nil] at hmerge
    rw [if_pos hA, if_pos hR]
    rw [if_neg (fun h => h rfl)]
    exact superTail_ok reg t sch vals _ hmerge hreq
  · rw [hA] at hmerge
    rw [if_pos hA, if_neg hR, hRmem]
    rw [if_neg (fun h => h rfl)]
    exact superTail_ok reg t sch vals _ hmerge hreq
  · have hRid_nil : byName sch (genRelId (mkFields sch vals)) = [] := by
      rw [byName_nil_iff] at hR ⊢
      intro g hg
      have hw := hR g hg
      unfold genRelWire at hw
      unfold genRelId
      rw [Option.map_eq_none'.mp hw]
      rfl
    rw [hRid_nil] at hmerge
    rw [if_neg hA, if_pos hR]
    rw [if_neg (fun h => h rfl)]
    exact superTail_ok reg t sch vals _ hmerge hreq
  · rw [if_neg hA, if_neg hR, hRmem]
    rw [if_neg (fun h => h rfl)]
    exact superTail_ok reg t sch vals _ hmerge hreq

/-- Full resource decode of the encoder's output for a schema-matching
record: de-inflection restores the schema names, `super()` rebuilds the
record, and the post-validation finds nothing. -/
theorem resourceDecode_canonical (reg : Registry) (t : String) (sch : Schema)
    (vals : String → Option JVal)
    (hfind : lookupSchema reg t = some sch)
    (hnd : (sch.map (fun g => g.name)).Nodup)
    (hlower : ∀ f ∈ sch, ∀ c ∈ f.name.data, c.isLower ∨ c = '_')
    (hnotype : ∀ f ∈ sch, f.name ≠ "type")
    (hidattr : ∀ f ∈ sch, f.name = "id" → f.kind = FieldKind.attr)
    (hrel : ∀ f ∈ sch, ∀ rt, f.kind = FieldKind.rel rt →
      (lookupSchema reg rt).isSome = true)
    (hreq : ∀ f ∈ sch, f.required = true → (vals f.name).isSome = true) :
    resourceToInternalValue reg
        (resourceToRepresentation reg ⟨t, mkFields sch vals⟩)
      = .ok ⟨t, mkFields sch vals⟩ := by
  have hAid : ∀ g ∈ sch,
      (genAttr (mkFields sch vals) g).isSome = true → g.name ≠ "id" := by
    intro g hg hs
    cases hgen : genAttr (mkFields sch vals) g with
    | none => rw [hgen] at hs; exact absurd hs (by simp)
    | some v =>
        have hid := (genAttr_some hgen).1
        intro he
        rw [he] at hid
        simp at hid
  have hRwnone : ∀ g, genRel (mkFields sch vals) g = none →
      genRelWire (mkFields sch vals) g = none := by
    intro g hgen
    unfold genRelWire
    rw [hgen]
    rfl
  have hRid : ∀ g ∈ sch,
      (genRelWire (mkFields sch vals) g).isSome = true → g.name ≠ "id" := by
    intro g hg hs
    cases hgen : genRel (mkFields sch vals) g with
    | none => rw [hRwnone g hgen] at hs; exact absurd hs (by simp)
    | some p =>
        obtain ⟨rt, v⟩ := p
        have hid := (genRel_some hgen).2.2
        intro he
        rw [he] at hid
        simp at hid
  have hdisj : ∀ g ∈ sch, ¬((genAttr (mkFields sch vals) g).isSome = true ∧
      (genRelWire (mkFields sch vals) g).isSome = true) := by
    rintro g hg ⟨hsa, hsr⟩
    cases hga : genAttr (mkFields sch vals) g with
    | none => rw [hga] at hsa; exact absurd hsa (by simp)
    | some v =>
        cases hgr : genRel (mkFields sch vals) g with
        | none => rw [hRwnone g hgr] at hsr; exact absurd hsr (by simp)
        | some p =>
            obtain ⟨rt, v2⟩ := p
            have h1 := (genAttr_some hga).2.1
            have h2 := (genRel_some hgr).1
            rw [h1] at h2
            exact absurd h2 (by simp)
  have hwire := resourceToRepresentation_eq reg ⟨t, mkFields sch vals⟩ sch hfind
  have hWrun : relsChildrenRun reg
      (byKey (fun g => parameterize g.name) sch (genRelWire (mkFields sch vals)))
      = .valid (byKey (fun g => parameterize g.name) sch
                 (genRelWire (mkFields sch vals)))
               (byKey (fun g => parameterize g.name) sch
                 (genRelId (mkFields sch vals))) :=
    relsChildrenRun_byKey reg (mkFields sch vals)
      (fun g => parameterize g.name) sch hrel
  unfold resourceToInternalValue
  simp only [resourceToInternalValueSt]
  rw [hwire]
  rw [deinflectMembers_canonWire reg _ t _ _ _ hWrun]
  rw [deinflectKeys_byKey sch _ hlower, deinflectKeys_byKey sch _ hlower]
  rw [objGet_canonWire_attrs, objGet_canonWire_rels]
  rw [resourcePostValidation_byName sch (genAttr (mkFields sch vals))
    (genRelWire (mkFields sch vals)) hnd hnotype hAid hRid hdisj]
  rw [resourceSuper_canonical reg t sch vals hfind hnd hidattr hrel hreq]
  rfl

/-- **C1 counterexample.**  The symmetric half of the round-trip law
fails: a well-formed resource object whose attribute keys are dashed
wire names decodes successfully (the de-inflection loop maps
`first-name` to the schema name `first_name`), but re-encoding the
decoded record renders the attribute under the inflected schema name
`first_name` — the key differs from the original wire object, so
`encode (decode x) ≠ x` even modulo optional members. -/
theorem c1_roundtrip_counterexample :
    resourceToInternalValue fixtureRegistry
        [("type", .str "people"),
         ("attributes", .obj [("first-name", .str "Dan")])]
      = .ok ⟨"people", [("first_name", .str "Dan")]⟩ ∧
    resourceToRepresentation fixtureRegistry
        ⟨"people", [("first_name", .str "Dan")]⟩
      ≠ [("type", .str "people"),
         ("attributes", .obj [("first-name", .str "Dan")])] := by
  refine ⟨rfl, ?_⟩
  have henc : resourceToRepresentation fixtureRegistry
      ⟨"people", [("first_name", .str "Dan")]⟩
      = [("type", .str "people"),
         ("attributes", .obj [("first_name", .str "Dan")])] := by
    rw [resourceToRepresentation_eq fixtureRegistry
      ⟨"people", [("first_name", .str "Dan")]⟩
      [⟨"id", .attr, false⟩, ⟨"first_name", .attr, true⟩,
       ⟨"last_name", .attr, false⟩] rfl]
    rw [show byKey (fun g => parameterize g.name)
        [⟨"id", .attr, false⟩, ⟨"first_name", .attr, true⟩,
         ⟨"last_name", .attr, false⟩]
        (genAttr [("first_name", JVal.str "Dan")])
      = [(parameterize "first_name", JVal.str "Dan")] from rfl]
    rw [parameterize_id "first_name" (by decide)]
    rfl
  rw [henc]
  decide

/-- **C1 (amended).**  Round-trip law, corrected: for every `FlatRecord`
matching a valid field schema — the schema is registered for the
record's type, field names are distinct lower/underscore names other
than `type`, any field named `id` is attribute-shaped, every
relationship field's declared related type is registered (identifier
resolvability), and every required field carries a value — decoding the
encoding returns the record unchanged.  Symmetrically, `encode (decode x)
= x` holds exactly for the canonical wire objects, i.e. those in the
encoder's image (the second conjunct); it fails for other well-formed
wire objects, e.g. dashed attribute keys (see the counterexample), since
re-encoding emits the inflected schema names. -/
theorem c1_resource_roundtrip (reg : Registry) (t : String) (sch : Schema)
    (vals : String → Option JVal)
    (hfind : lookupSchema reg t = some sch)
    (hnd : (sch.map (fun g => g.name)).Nodup)
    (hlower : ∀ f ∈ sch, ∀ c ∈ f.name.data, c.isLower ∨ c = '_')
    (hnotype : ∀ f ∈ sch, f.name ≠ "type")
    (hidattr : ∀ f ∈ sch, f.name = "id" → f.kind = FieldKind.attr)
    (hrel : ∀ f ∈ sch, ∀ rt, f.kind = FieldKind.rel rt →
      (lookupSchema reg rt).isSome = true)
    (hreq : ∀ f ∈ sch, f.required = true → (vals f.name).isSome = true) :
    resourceToInternalValue reg
        (resourceToRepresentation reg ⟨t, mkFields sch vals⟩)
      = .ok ⟨t, mkFields sch vals⟩ ∧
    ∀ x : Obj, x = resourceToRepresentation reg ⟨t, mkFields sch vals⟩ →
      ∃ r2 : FlatRecord, resourceToInternalValue reg x = .ok r2 ∧
        resourceToRepresentation reg r2 = x := by
  have hdec := resourceDecode_canonical reg t sch vals hfind hnd hlower
    hnotype hidattr hrel hreq
  exact ⟨hdec, fun x hx =>
    ⟨⟨t, mkFields sch vals⟩, by rw [hx]; exact hdec, hx.symm⟩⟩

/-- **C1 witness.**  The amended round-trip at a concrete record: an
`articles` resource with `id`, a `title` attribute and an `author`
relationship to `people` survives encode-then-decode unchanged under the
fixture registry. -/
theorem c1_resource_roundtrip_witness :
    resourceToInternalValue fixtureRegistry
        (resourceToRepresentation fixtureRegistry
          ⟨"articles", mkFields
            [⟨"id", .attr, false⟩, ⟨"title", .attr, true⟩,
             ⟨"description", .attr, false⟩, ⟨"author", .rel "people", false⟩]
            (fun n => if n = "title" then some (.str "T")
              else if n = "author" then some (.str "u9")
              else if n = "id" then some (.str "u1") else none)⟩)
      = .ok ⟨"articles", mkFields
            [⟨"id", .attr, false⟩, ⟨"title", .attr, true⟩,
             ⟨"description", .attr, false⟩, ⟨"author", .rel "people", false⟩]
            (fun n => if n = "title" then some (.str "T")
              else if n = "author" then some (.str "u9")
              else if n = "id" then some (.str "u1") else none)⟩ :=
  (c1_resource_roundtrip fixtureRegistry "articles"
    [⟨"id", .attr, false⟩, ⟨"title", .attr, true⟩,
     ⟨"description", .attr, false⟩, ⟨"author", .rel "people", false⟩]
    (fun n => if n = "title" then some (.str "T")
      else if n = "author" then some (.str "u9")
      else if n = "id" then some (.str "u1") else none)
    rfl (by decide) (by decide) (by decide) (by decide)
    (by
      intro f hf rt hk
      have hd : ∀ g ∈ ([⟨"id", .attr, false⟩, ⟨"title", .attr, true⟩,
          ⟨"description", .attr, false⟩,
          ⟨"author", .rel "people", false⟩] : Schema),
          (match g.kind with
            | FieldKind.rel rt2 => (lookupSchema fixtureRegistry rt2).isSome
            | FieldKind.attr => true) = true := by decide
      have hx := hd f hf
      rw [hk] at hx
      exact hx)
    (by decide)).1
